import Mathlib

/-!
Verification of the printCNC conversion engine (`GCode.py`, `main.py`).

The embedding is shallow: every function of `GCode.py` that the claims touch is
translated to an executable Lean definition over explicit data.  Python values
stored in a command's parameter map are modeled by `PyVal`: exact integers,
Python floats as exact decimal numbers `m * 10 ^ (-e)` (binary floating point
artifacts such as NaN/overflow are outside the model; every float manipulated
by the program is produced by decimal parsing, negation, subtraction or
rounding, all of which stay inside exact decimals), and the string fallback of
`_getNum` for unparseable tokens.  Exceptions raised by Python (IndexError,
KeyError, ValueError, TypeError, ZeroDivisionError) are modeled with `Except`.
Loops that Python runs with mutating iteration are modeled index-faithfully,
including Python's skip-on-removal iterator behaviour and negative-index
wraparound, with a structural fuel argument chosen large enough that the fuel
can never run out before the Python loop would have stopped or crashed.
-/

/-- A value held in a Command's parameter dictionary: `int`, `float`
(stored exactly as mantissa `m` and decimal exponent `e`, denoting
`m / 10 ^ e`), or the string fallback used for unparseable tokens. -/
inductive PyVal where
  | int : Int → PyVal
  | float : (m : Int) → (e : Nat) → PyVal
  | str : String → PyVal
deriving DecidableEq, Repr

/-- One digit as a character. -/
def digitChar (n : Nat) : Char := Char.ofNat (48 + n)

/-- Numeric value of a digit character. -/
def toDigit (c : Char) : Nat := c.toNat - 48

/-- Decimal digits of `n`, least significant first, with structural fuel
(`fuel ≥ n` is always enough). -/
def digitsRevF : Nat → Nat → List Char
  | 0, _ => []
  | fuel + 1, n => if n = 0 then [] else digitChar (n % 10) :: digitsRevF fuel (n / 10)

/-- Decimal rendering of a natural number. -/
def natStr (n : Nat) : String := if n = 0 then "0" else String.mk (digitsRevF n n).reverse

/-- Decimal rendering of an integer, as Python `str` renders an int. -/
def intStr (n : Int) : String := if n < 0 then "-" ++ natStr n.natAbs else natStr n.natAbs

/-- Strip factors of ten out of a decimal mantissa/exponent pair, with fuel
(`fuel ≥ e` always suffices); this is the canonical form in which the model
keeps every float. -/
def normF : Nat → Int → Nat → Int × Nat
  | 0, m, e => (m, e)
  | fuel + 1, m, e =>
    if e = 0 then (m, 0)
    else if m.emod 10 = 0 then normF fuel (m.ediv 10) (e - 1) else (m, e)

/-- Normalized float from a mantissa/exponent pair. -/
def normDec (m : Int) (e : Nat) : PyVal := PyVal.float (normF e m e).1 (normF e m e).2

/-- Rational value of a `PyVal` (strings, which every numeric code path
explicitly skips, are given a junk value). -/
def PyVal.toQ : PyVal → ℚ
  | .int n => (n : ℚ)
  | .float m e => (m : ℚ) / (10 : ℚ) ^ e
  | .str _ => 0

/-- Positional decimal rendering of the float `m / 10 ^ e`, as Python's `str`
renders the exact decimal value (Python switches to scientific notation for
extreme magnitudes; the model always prints positionally, an equal-value
formatting difference). -/
def decStr (m : Int) (e : Nat) : String :=
  let a := m.natAbs
  let sign := if m < 0 then "-" else ""
  if e = 0 then sign ++ natStr a ++ ".0"
  else
    let ds0 := (digitsRevF a a).reverse
    let ds := if ds0.length < e + 1 then List.replicate (e + 1 - ds0.length) '0' ++ ds0 else ds0
    sign ++ String.mk (ds.take (ds.length - e)) ++ "." ++ String.mk (ds.drop (ds.length - e))

/-- Python `str` of a parameter value. -/
def PyVal.pyStr : PyVal → String
  | .int n => intStr n
  | .float m e => decStr m e
  | .str s => s

/-- Value of a digit string, most significant digit first. -/
def natVal (l : List Char) : Nat := l.foldl (fun a c => a * 10 + toDigit c) 0

/-- Python `int(s)`: optional sign followed by at least one digit. -/
def parseInt? (l : List Char) : Option Int :=
  let core : List Char → Option Int := fun ds =>
    if ds ≠ [] ∧ ds.all Char.isDigit then some ((natVal ds : Nat) : Int) else none
  match l with
  | '-' :: rest => (core rest).map (fun n => -n)
  | '+' :: rest => core rest
  | _ => core l

/-- Split a leading sign off a numeric literal; `true` means negative. -/
def splitSign : List Char → Bool × List Char
  | '-' :: rest => (true, rest)
  | '+' :: rest => (false, rest)
  | l => (false, l)

/-- Split a float literal at the first exponent marker `e`/`E`. -/
def breakExp : List Char → List Char × Option (List Char)
  | [] => ([], none)
  | c :: cs =>
    if c = 'e' ∨ c = 'E' then ([], some cs)
    else
      let p := breakExp cs
      (c :: p.1, p.2)

/-- Parse the mantissa of a float literal: digits, optionally with one point,
at least one digit in total.  Returns the digit value and the number of
fractional digits. -/
def parseMant (l : List Char) : Option (Nat × Nat) :=
  let ip := l.takeWhile Char.isDigit
  let rest := l.dropWhile Char.isDigit
  match rest with
  | [] => if ip = [] then none else some (natVal ip, 0)
  | '.' :: fr =>
    if fr.all Char.isDigit ∧ (ip ≠ [] ∨ fr ≠ []) then some (natVal (ip ++ fr), fr.length)
    else none
  | _ => none

/-- Assemble a parsed float from sign, digit value, fractional length and
decimal exponent. -/
def mkFloat (neg : Bool) (v : Nat) (k : Nat) (x : Int) : PyVal :=
  let m0 : Int := if neg then -(v : Int) else (v : Int)
  if x ≤ (k : Int) then normDec m0 (((k : Int) - x).toNat)
  else normDec (m0 * (10 : Int) ^ ((x - (k : Int)).toNat)) 0

/-- Python `float(s)` on the finite decimal grammar
`[sign] digits [. digits] [(e|E) [sign] digits]` (the special literals
`nan`/`inf`, which have no exact value, are outside the model). -/
def parseFloat? (l : List Char) : Option PyVal :=
  let sp := splitSign l
  let be := breakExp sp.2
  match parseMant be.1 with
  | none => none
  | some (v, k) =>
    match be.2 with
    | none => some (mkFloat sp.1 v k 0)
    | some ex => (parseInt? ex).map (fun x => mkFloat sp.1 v k x)

/-- `GCodeCommand._getNum`: try `int`, then `float`, else keep the string. -/
def getNum (l : List Char) : PyVal :=
  match parseInt? l with
  | some n => PyVal.int n
  | none =>
    match parseFloat? l with
    | some v => v
    | none => PyVal.str (String.mk l)

/-- A parsed line of G-code (`GCodeCommand`): verb, ordered parameter
dictionary, trailing comment.  The parameter dictionary is modeled as an
association list in insertion order, matching Python dict semantics. -/
structure Cmd where
  verb : String
  parameters : List (Char × PyVal)
  comment : String
deriving DecidableEq, Repr

/-- Python dict update `d[k] = v`: replace in place if the key is present,
else append. -/
def dictSet (ps : List (Char × PyVal)) (k : Char) (v : PyVal) : List (Char × PyVal) :=
  if ps.any (fun p => p.1 = k) then ps.map (fun p => if p.1 = k then (k, v) else p)
  else ps ++ [(k, v)]

/-- Build a dict from key/value pairs in order (later duplicates overwrite in
place), as the dict comprehension in `StringGCodeCommand.__init__` does. -/
def dictOf (l : List (Char × PyVal)) : List (Char × PyVal) :=
  l.foldl (fun d p => dictSet d p.1 p.2) []

/-- Python `k in d`. -/
def dictHas (ps : List (Char × PyVal)) (k : Char) : Bool := ps.any (fun p => p.1 = k)

/-- Python `d[k]` as an option. -/
def dictGet? (ps : List (Char × PyVal)) (k : Char) : Option PyVal :=
  (ps.find? (fun p => p.1 = k)).map (fun p => p.2)

/-- Python `del d[k]`. -/
def dictDel (ps : List (Char × PyVal)) (k : Char) : List (Char × PyVal) :=
  ps.filter (fun p => ¬ p.1 = k)

/-- Whitespace for Python `str.split()` on a single G-code line. -/
def isSp (c : Char) : Bool := c = ' ' ∨ c = '\t'

/-- Python `s.rstrip(' ')` (spaces only). -/
def rstripSp (l : List Char) : List Char := (l.reverse.dropWhile (fun c => c = ' ')).reverse

/-- Python `s.lstrip(' ')` (spaces only). -/
def lstripSp (l : List Char) : List Char := l.dropWhile (fun c => c = ' ')

/-- Python `s.partition(';')` restricted to the two parts the tokenizer uses:
text before the first `;` and text after it (empty when there is no `;`). -/
def breakSemi : List Char → List Char × List Char
  | [] => ([], [])
  | c :: cs =>
    if c = ';' then ([], cs)
    else
      let p := breakSemi cs
      (c :: p.1, p.2)

/-- Python `str.split()` with no separator: split on whitespace runs, dropping
empty pieces.  `cur` is the reversed chunk currently being read. -/
def splitWsAcc (cur : List Char) : List Char → List (List Char)
  | [] => if cur = [] then [] else [cur.reverse]
  | c :: cs =>
    if isSp c then
      if cur = [] then splitWsAcc [] cs else cur.reverse :: splitWsAcc [] cs
    else splitWsAcc (c :: cur) cs

/-- Exceptions the Python code can raise on the modeled paths. -/
inductive PyErr where
  | indexError : PyErr
  | keyError : Char → PyErr
  | valueError : String → PyErr
  | typeError : String → PyErr
  | zeroDivisionError : PyErr
deriving DecidableEq, Repr

/-- `StringGCodeCommand.__init__`/`_tokenize`: split the line at the first
`;`, right-strip spaces from the command part and left-strip them from the
comment, split the command part on whitespace, take the first token as verb
and turn each remaining token into a key (first character) and `_getNum` of
the rest.  A command part that is non-empty but contains no token (for
example a lone tab) makes Python index an empty list, an IndexError. -/
def tokenizeE (l : List Char) : Except PyErr Cmd :=
  let parts := breakSemi l
  let cmdPart := rstripSp parts.1
  let comment := String.mk (lstripSp parts.2)
  if cmdPart = [] then .ok ⟨"", [], comment⟩
  else
    match splitWsAcc [] cmdPart with
    | [] => .error .indexError
    | verb :: ps =>
      .ok ⟨String.mk verb, dictOf (ps.map (fun t => (t.headD ' ', getNum t.tail))), comment⟩

/-- `tokenizeE` on a string, defaulting to the empty command on the (never
exercised) IndexError path; used only to spell concrete scripts. -/
def tokD (s : String) : Cmd :=
  match tokenizeE s.data with
  | .ok c => c
  | .error _ => ⟨"", [], ""⟩

/-- Python `round(value, 5)`: identity on ints, exact decimal rounding with
ties to even on floats (Python rounds the underlying binary value; on the
exact decimals of this model that is decimal round-half-even). -/
def pyRound5 : PyVal → PyVal
  | .int n => .int n
  | .str s => .str s
  | .float m e =>
    if e ≤ 5 then .float m e
    else
      let P : Int := (10 : Int) ^ (e - 5)
      let q := m.ediv P
      let r := m.emod P
      let q' := if 2 * r < P then q else if P < 2 * r then q + 1 else if q.emod 2 = 0 then q else q + 1
      normDec q' 5

/-- `GCodeCommand.getCommand`: verb, then for each parameter a space, the key,
and -- for non-string values only -- the value rounded to 5 decimals. -/
def Cmd.getCommand (c : Cmd) : String :=
  c.parameters.foldl
    (fun text p =>
      text ++ " " ++ String.mk [p.1] ++
        (match p.2 with
         | .str _ => ""
         | v => (pyRound5 v).pyStr))
    c.verb

/-- `GCodeCommand.getFullCommand`: append `; comment` when a comment is
present. -/
def Cmd.getFullCommand (c : Cmd) : String :=
  if c.comment ≠ "" then c.getCommand ++ "; " ++ c.comment else c.getCommand

/-- `GCodeCommand.isACommand`. -/
def Cmd.isACommand (c : Cmd) : Bool := c.verb ≠ ""

/-- `GCodeScript.loadFromString`: split on newlines and tokenize each line
(the IndexError line, impossible for text without lone-tab command parts, is
replaced by an empty command here; concrete scripts below avoid it). -/
def loadFromString (s : String) : List Cmd := (s.split (fun c => c = '\n')).map tokD

/-- Numeric test used by `orient` (`type(x) != str`). -/
def PyVal.isNum : PyVal → Bool
  | .str _ => false
  | _ => true

/-- Python `min` folding: keep the current best unless a strictly smaller
element appears, so the first minimal element wins. -/
def pyMinFold (a : PyVal) (l : List PyVal) : PyVal :=
  l.foldl (fun best x => if x.toQ < best.toQ then x else best) a

/-- Python `min(list)`: `none` models the ValueError on an empty sequence. -/
def pyMin? : List PyVal → Option PyVal
  | [] => none
  | a :: rest => some (pyMinFold a rest)

/-- View a numeric value as a decimal mantissa/exponent pair. -/
def toDecPair : PyVal → Int × Nat
  | .int n => (n, 0)
  | .float m e => (m, e)
  | .str _ => (0, 0)

/-- Exact decimal subtraction, normalized. -/
def subDec (a b : Int × Nat) : PyVal :=
  let e := max a.2 b.2
  normDec (a.1 * (10 : Int) ^ (e - a.2) - b.1 * (10 : Int) ^ (e - b.2)) e

/-- Python subtraction on numeric values: int minus int stays int, any float
operand makes the result a float. -/
def pySub (a b : PyVal) : PyVal :=
  match a, b with
  | .int x, .int y => .int (x - y)
  | a, b => subDec (toDecPair a) (toDecPair b)

/-- The list comprehension collecting one axis parameter across the script. -/
def axisArgs (lines : List Cmd) (k : Char) : List PyVal :=
  lines.filterMap (fun c => dictGet? c.parameters k)

/-- Keep the numeric values, as `orient`'s min computation filters strings. -/
def numList (vs : List PyVal) : List PyVal := vs.filter PyVal.isNum

/-- One command's in-place translation step of `orient` for one axis:
subtract `m` from the axis parameter when it is present and numeric. -/
def shiftParam (k : Char) (m : PyVal) (c : Cmd) : Cmd :=
  match dictGet? c.parameters k with
  | some v =>
    if v.isNum then { c with parameters := dictSet c.parameters k (pySub v m) } else c
  | none => c

/-- `GCodeScript.orient`: compute the minimum numeric X and Y (Python `min`
raises `ValueError: min() arg is an empty sequence` when a filtered list is
empty, before any mutation), then subtract the minima from every numeric X/Y
parameter. -/
def orientE (lines : List Cmd) : Except PyErr (List Cmd) :=
  match pyMin? (numList (axisArgs lines 'X')), pyMin? (numList (axisArgs lines 'Y')) with
  | some minx, some miny =>
    .ok (lines.map (fun c => shiftParam 'Y' miny (shiftParam 'X' minx c)))
  | _, _ => .error (.valueError "min() arg is an empty sequence")

/-- `GCodeScript._cleanCommandsFromList`, modeled with Python's iterator
semantics: the `for` loop keeps an internal position that advances after every
step, so `lines.remove(command)` makes the element after the removed one slide
into the current slot and get skipped.  Fuel `initial length + 1` always
suffices because the position grows by one per step and the list never grows. -/
def cleanListF : Nat → List Cmd → Nat → List Cmd
  | 0, lines, _ => lines
  | fuel + 1, lines, i =>
    match lines.get? i with
    | none => lines
    | some c =>
      if c.isACommand then cleanListF fuel (lines.set i { c with comment := "" }) (i + 1)
      else cleanListF fuel (lines.eraseIdx i) (i + 1)

/-- The clean pass `shrink` runs over a command sequence. -/
def cleanList (lines : List Cmd) : List Cmd := cleanListF (lines.length + 1) lines 0

/-- Python `needle in hay` on strings. -/
def containsSub (hay needle : String) : Bool :=
  hay.data.tails.any (fun t => needle.data.isPrefixOf t)

/-- Python `str.removeprefix`. -/
def removePre (pre s : String) : String :=
  if pre.data.isPrefixOf s.data then String.mk (s.data.drop pre.data.length) else s

/-- The scan of `computeLayerIndices`: indices whose comment contains "LAYER"
but neither "BEFORE" nor "AFTER". -/
def rawLayerIndices (lines : List Cmd) : List Nat :=
  (lines.enum.filter (fun p =>
    containsSub p.2.comment "LAYER" ∧ ¬ containsSub p.2.comment "BEFORE" ∧
      ¬ containsSub p.2.comment "AFTER")).map (fun p => p.1)

/-- `GCodeScriptPrinter.getSlicingEngine` (reads `lines[0]`, an IndexError on
an empty script; the non-fatal log warning is not modeled). -/
def getSlicingEngineE (lines : List Cmd) : Except PyErr String :=
  match lines with
  | [] => .error .indexError
  | c0 :: _ =>
    if containsSub c0.comment "PrusaSlicer" then .ok "PrusaSlicer"
    else if lines.any (fun c => containsSub c.comment "Cura") then .ok "Cura"
    else .ok "Other"

/-- `GCodeScriptPrinter.computeLayerIndices`: the scan, then the Cura
correction `layerIndicies.pop(1)` (an IndexError when fewer than two entries
exist). -/
def computeLayerIndicesE (lines : List Cmd) : Except PyErr (List Nat) := do
  let li := rawLayerIndices lines
  let eng ← getSlicingEngineE lines
  if eng = "Cura" then
    if 2 ≤ li.length then pure (li.eraseIdx 1) else throw .indexError
  else pure li

/-- `GCodeScriptPrinter.getLayer` with a precomputed table: walk the recorded
boundary positions from the top and return the position (= 0-based layer
number) of the largest boundary index that is at most `commandIndex`;
`none` models Python's `None`. -/
def getLayer? (layerIdx : List Nat) (commandIndex : Nat) : Option Nat :=
  (List.range layerIdx.length).reverse.find? (fun j =>
    match layerIdx.get? j with
    | some v => v ≤ commandIndex
    | none => false)

/-- Dict update for the `Nat`-keyed type table. -/
def natDictSet (ps : List (Nat × String)) (k : Nat) (v : String) : List (Nat × String) :=
  if ps.any (fun p => p.1 = k) then ps.map (fun p => if p.1 = k then (k, v) else p)
  else ps ++ [(k, v)]

/-- `GCodeScriptPrinter.computeTypeChanges`: seed `{0: "None"}`, then record
`comment.removeprefix("TYPE:")` at every index whose comment contains
"TYPE:". -/
def computeTypeChanges (lines : List Cmd) : List (Nat × String) :=
  lines.enum.foldl
    (fun table p =>
      if containsSub p.2.comment "TYPE:" then natDictSet table p.1 (removePre "TYPE:" p.2.comment)
      else table)
    [(0, "None")]

/-- `GCodeScriptPrinter.getType` with a precomputed table: first entry of the
reversed insertion order whose index is at most `commandIndex`; the ValueError
is the "Could not detect types" raise. -/
def getTypeE (table : List (Nat × String)) (commandIndex : Nat) : Except PyErr String :=
  match table.reverse.find? (fun p => p.1 ≤ commandIndex) with
  | some p => .ok p.2
  | none => .error (.valueError "Could not detect types")

/-- Python `str.lower()` on the ASCII text the program handles. -/
def strLower (s : String) : String := String.mk (s.data.map Char.toLower)

/-- The marking loop of `removeInfill` over the given command indices: a
command index is marked for removal when its type contains "fill" (lowercase),
its layer number modulo the frequency is nonzero (`None % int` is Python's
TypeError; frequency 0 would be a ZeroDivisionError), and its verb is not
"G0". -/
def infillMarks (lines : List Cmd) (layerIdx : List Nat) (typeTable : List (Nat × String))
    (f : Nat) : List Nat → Except PyErr (List Nat)
  | [] => .ok []
  | i :: rest => do
    let tv ← getTypeE typeTable i
    if containsSub (strLower tv) "fill" then
      match getLayer? layerIdx i with
      | none => throw (.typeError "unsupported operand type(s) for %: NoneType and int")
      | some L =>
        if f = 0 then throw .zeroDivisionError
        else if L % f ≠ 0 then
          match lines.get? i with
          | some c =>
            if c.verb ≠ "G0" then do
              let keep ← infillMarks lines layerIdx typeTable f rest
              pure (i :: keep)
            else infillMarks lines layerIdx typeTable f rest
          | none => infillMarks lines layerIdx typeTable f rest
        else infillMarks lines layerIdx typeTable f rest
    else infillMarks lines layerIdx typeTable f rest

/-- The removal sweep: pop the marked indices in reverse (descending) order. -/
def popDesc (lines : List Cmd) (marks : List Nat) : List Cmd :=
  marks.reverse.foldl (fun l i => l.eraseIdx i) lines

/-- `GCodeScriptCNCFromGCodeScriptPrinter.removeInfill`: recompute both
tables, mark, then pop in descending index order. -/
def removeInfillE (lines : List Cmd) (f : Nat) : Except PyErr (List Cmd) := do
  let layerIdx ← computeLayerIndicesE lines
  let typeTable := computeTypeChanges lines
  let marks ← infillMarks lines layerIdx typeTable f (List.range lines.length)
  pure (popDesc lines marks)

/-- Python `lines[idx]` with an `Int` index: negative indices wrap from the
end; out of range raises IndexError. -/
def pyIdxE (lines : List Cmd) (idx : Int) : Except PyErr Cmd :=
  if 0 ≤ idx then
    match lines.get? idx.toNat with
    | some c => .ok c
    | none => .error .indexError
  else if -idx ≤ (lines.length : Int) then
    match lines.get? (lines.length - (-idx).toNat) with
    | some c => .ok c
    | none => .error .indexError
  else .error .indexError

/-- The physical position Python's negative indexing resolves to. -/
def pyPos (lines : List Cmd) (idx : Int) : Nat :=
  if 0 ≤ idx then idx.toNat else lines.length - (-idx).toNat

/-- The `while currentOffset != offset` walk of
`getCommandRelativeToIndex`, returning the final Python index.  The walk moves
the index monotonically by `iteration` each step, so it either reaches the
required count of real commands or falls off the list (IndexError); the fuel
chosen by `getRelIdxE` strictly exceeds the number of steps either outcome can
take, so the fuel-exhaustion branch is unreachable. -/
def getRelWalkF : Nat → List Cmd → Int → Int → Int → Int → Except PyErr Int
  | 0, _, _, _, _, _ => .error .indexError
  | fuel + 1, lines, index, offset, iteration, currentOffset =>
    if currentOffset = offset then .ok index
    else do
      let index' := index + iteration
      let c ← pyIdxE lines index'
      getRelWalkF fuel lines index' offset iteration
        (if c.isACommand then currentOffset + iteration else currentOffset)

/-- `getCommandRelativeToIndex`, resolved to the Python index it stops at.
`offset // abs(offset)` is a ZeroDivisionError for offset 0. -/
def getRelIdxE (lines : List Cmd) (index : Int) (offset : Int) : Except PyErr Int :=
  if offset = 0 then .error .zeroDivisionError
  else
    getRelWalkF (lines.length * (offset.natAbs + 1) + index.natAbs + offset.natAbs + 2)
      lines index offset (if offset < 0 then -1 else 1) 0

/-- `getCommandRelativeToIndex`: the command at the index the walk stops at. -/
def getRelE (lines : List Cmd) (index : Int) (offset : Int) : Except PyErr Cmd := do
  pyIdxE lines (← getRelIdxE lines index offset)

/-- Step 1 of `convert`: delete the E and F parameters everywhere. -/
def stripEF (lines : List Cmd) : List Cmd :=
  lines.map (fun c => { c with parameters := dictDel (dictDel c.parameters 'E') 'F' })

/-- `_isPrinterSpecificCommand`: the verb is not in `USABLE_COMMANDS`. -/
def isPrinterSpecificCommand (c : Cmd) : Bool := ¬ (c.verb = "G1" ∨ c.verb = "G0")

/-- Step 2 of `convert`: collect the printer-specific commands and
`lines.remove` each; since removal is by object identity and each object
occurs once, the sweep is exactly a filter keeping G1/G0. -/
def removePrinterCmds (lines : List Cmd) : List Cmd :=
  lines.filter (fun c => ¬ isPrinterSpecificCommand c)

/-- Python `-1 * v`: numeric negation; on a string, repetition with a
negative count, which is the empty string. -/
def pyNegOne : PyVal → PyVal
  | .int n => .int (-n)
  | .float m e => .float (-m) e
  | .str _ => .str ""

/-- Step 3 of `convert`: negate every Z parameter (no numeric guard in the
source: a string-valued Z becomes `-1 * str`, the empty string). -/
def mirrorZ (lines : List Cmd) : List Cmd :=
  lines.map (fun c =>
    match dictGet? c.parameters 'Z' with
    | some v => { c with parameters := dictSet c.parameters 'Z' (pyNegOne v) }
    | none => c)

/-- One `for index, command in enumerate(self.lines)` pass of the
multi-line-travel removal (step 4 of `convert`), with Python's iterator
semantics: the position advances by one after each step even when the element
before it was removed, so the element sliding into the vacated slot is
skipped.  When the current and previous real command are both G0, the current
one inherits the previous one's Z (if any) and the previous one -- the object
`getCommandRelativeToIndex(index, -1)` resolves to, removed by identity, i.e.
at its physical position, which for index 0 wraps to the end of the list -- is
deleted.  Fuel `initial length + 1` suffices: the position grows by one per
step and the list never grows. -/
def collapsePassF : Nat → List Cmd → Nat → Bool → Except PyErr (List Cmd × Bool)
  | 0, lines, _, altered => .ok (lines, altered)
  | fuel + 1, lines, i, altered =>
    match lines.get? i with
    | none => .ok (lines, altered)
    | some command => do
      let oldCommand ← getRelE lines (i : Int) (-1)
      if command.verb = "G0" ∧ oldCommand.verb = "G0" then
        let command' :=
          match dictGet? oldCommand.parameters 'Z' with
          | some z => { command with parameters := dictSet command.parameters 'Z' z }
          | none => command
        let lines' := lines.set i command'
        let j ← getRelIdxE lines' (i : Int) (-1)
        collapsePassF fuel (lines'.eraseIdx (pyPos lines' j)) (i + 1) true
      else collapsePassF fuel lines (i + 1) altered

/-- The `while altered` loop around the pass.  Every altering pass removes at
least one command, so at most `initial length` altering passes happen before a
final non-altering one: fuel `initial length + 2` suffices. -/
def collapseLoopF : Nat → List Cmd → Except PyErr (List Cmd)
  | 0, lines => .ok lines
  | fuel + 1, lines => do
    let r ← collapsePassF (lines.length + 1) lines 0 false
    if r.2 then collapseLoopF fuel r.1 else pure r.1

/-- Step 4 of `convert` as a whole. -/
def collapseE (lines : List Cmd) : Except PyErr (List Cmd) :=
  collapseLoopF (lines.length + 2) lines

/-- Number of G0 commands, which bounds the growth of the expansion step. -/
def countG0 (lines : List Cmd) : Nat := (lines.filter (fun c => c.verb = "G0")).length

/-- Step 5 of `convert`, the travel expansion, with Python's iterator
semantics: a running altitude is updated from every Z parameter met; each G0
reached is replaced in place by the lift/lateral/plunge triple built through
f-string formatting and re-tokenization (two inserts at the G0's position and
an assignment over the G0 itself), after which iteration resumes one past the
freshly inserted lift, i.e. on the lateral move.  The unused
`oldCommand` lookup of the source is still evaluated for its effects.  Each
step advances the position by one and the final length is the initial length
plus twice the number of G0s, so fuel `length + 2 * countG0 + 1` suffices. -/
def expandLoopF (clearance travelSpeed feedSpeed : PyVal) :
    Nat → List Cmd → Nat → PyVal → Except PyErr (List Cmd)
  | 0, lines, _, _ => .ok lines
  | fuel + 1, lines, i, altitude =>
    match lines.get? i with
    | none => .ok lines
    | some command =>
      let altitude' :=
        match dictGet? command.parameters 'Z' with
        | some z => z
        | none => altitude
      if command.verb = "G0" then do
        let _oldCommand ← getRelE lines (i : Int) (-1)
        let x ← match dictGet? command.parameters 'X' with
          | some v => pure v
          | none => throw (.keyError 'X')
        let y ← match dictGet? command.parameters 'Y' with
          | some v => pure v
          | none => throw (.keyError 'Y')
        let lift ← tokenizeE ("G1 Z" ++ clearance.pyStr ++ " F" ++ travelSpeed.pyStr).data
        let lat ← tokenizeE ("G1 X" ++ x.pyStr ++ " Y" ++ y.pyStr).data
        let newAltitude :=
          match dictGet? command.parameters 'Z' with
          | some z => z
          | none => altitude'
        let plunge ← tokenizeE ("G1 Z" ++ newAltitude.pyStr ++ " F" ++ feedSpeed.pyStr).data
        let lines' := ((lines.insertIdx i lift).insertIdx (i + 1) lat).set (i + 2) plunge
        expandLoopF clearance travelSpeed feedSpeed fuel lines' (i + 1) altitude'
      else expandLoopF clearance travelSpeed feedSpeed fuel lines (i + 1) altitude'

/-- Step 5 of `convert` as a whole (`altitude = 0` is a Python int). -/
def expandE (clearance travelSpeed feedSpeed : PyVal) (lines : List Cmd) :
    Except PyErr (List Cmd) :=
  expandLoopF clearance travelSpeed feedSpeed (lines.length + 2 * countG0 lines + 1)
    lines 0 (PyVal.int 0)

/-- `GCodeScriptCNCFromGCodeScriptPrinter.convert` on the body sequence. -/
def convertLinesE (clearance travelSpeed feedSpeed : PyVal) (lines : List Cmd) :
    Except PyErr (List Cmd) := do
  let l4 ← collapseE (mirrorZ (removePrinterCmds (stripEF lines)))
  expandE clearance travelSpeed feedSpeed l4

/-- The CNC-flavored script state: body, affixes and configuration fields. -/
structure CNCScript where
  lines : List Cmd
  prefixGcode : List Cmd
  suffixGcode : List Cmd
  clearance : PyVal
  travelSpeed : PyVal
  feedSpeed : PyVal
  spindleSpeed : PyVal
deriving DecidableEq, Repr

/-- `convert` acting on the script state. -/
def convertS (s : CNCScript) : Except PyErr CNCScript := do
  let l ← convertLinesE s.clearance s.travelSpeed s.feedSpeed s.lines
  pure { s with lines := l }

/-- Serialize a command sequence with comments, newline-terminated lines. -/
def renderLines (lines : List Cmd) : String :=
  lines.foldl (fun acc c => acc ++ c.getFullCommand ++ "\n") ""

/-- `export`: `final = self.prefixGcode` aliases the prefix list, and the two
`extend` calls mutate it in place, so the returned state's `prefixGcode` holds
prefix ++ body ++ suffix while every other field is untouched. -/
def exportS (s : CNCScript) : String × CNCScript :=
  let final := s.prefixGcode ++ s.lines ++ s.suffixGcode
  (renderLines final, { s with prefixGcode := final })

/-- A key (or verb character) that survives tokenization unchanged: not
whitespace and not the comment delimiter. -/
def canonKey (k : Char) : Bool := ¬ isSp k ∧ ¬ k = ';'

/-- A parameter value in the canonical form tokenization produces: ints are
arbitrary, floats are normalized, and fallback strings are exactly the
unparseable whitespace-free tokens `_getNum` can return. -/
def PyVal.canonical : PyVal → Bool
  | .int _ => true
  | .float m e => decide (e = 0 ∨ ¬ m.emod 10 = 0)
  | .str s =>
    (parseInt? s.data).isNone && (parseFloat? s.data).isNone &&
      s.data.all (fun c => canonKey c)

/-- Canonical parameter dictionary: canonical keys and values, no duplicate
keys. -/
def canonParams (ps : List (Char × PyVal)) : Bool :=
  ps.all (fun p => canonKey p.1 && p.2.canonical) && decide ((ps.map Prod.fst).Nodup)

/-- A command in the shape tokenization produces. -/
def Cmd.canonical (c : Cmd) : Bool :=
  (if c.verb = "" then decide (c.parameters = []) else c.verb.data.all canonKey) &&
    canonParams c.parameters

/-- A script of canonical commands. -/
def canonScript (lines : List Cmd) : Bool := lines.all Cmd.canonical

/-- The running-altitude update of the expansion loop: a command's Z
parameter, when present, becomes the altitude. -/
def altUpd (c : Cmd) (alt : PyVal) : PyVal :=
  match dictGet? c.parameters 'Z' with
  | some z => z
  | none => alt

/-- The safety shape claim C1 asserts of the expansion: relative to the
running altitude, the output is the input with every G0 replaced, in place, by
exactly a lift (Z = clearance and F only), a lateral move (the G0's X and Y
only, no Z, immediately after the lift), and a plunge (Z = the G0's own Z or
the running altitude, and F only), while every non-G0 command is kept
unchanged. -/
inductive SafeExpansion (clearance travelSpeed feedSpeed : PyVal) :
    PyVal → List Cmd → List Cmd → Prop where
  | nil : ∀ alt, SafeExpansion clearance travelSpeed feedSpeed alt [] []
  | keep : ∀ alt c mid res, ¬ c.verb = "G0" →
      SafeExpansion clearance travelSpeed feedSpeed (altUpd c alt) mid res →
      SafeExpansion clearance travelSpeed feedSpeed alt (c :: mid) (c :: res)
  | travel : ∀ alt c mid res x y lift lat plunge,
      c.verb = "G0" →
      dictGet? c.parameters 'X' = some x →
      dictGet? c.parameters 'Y' = some y →
      lift.verb = "G1" →
      lift.parameters = [('Z', clearance), ('F', travelSpeed)] →
      lat.verb = "G1" →
      lat.parameters = [('X', x), ('Y', y)] →
      plunge.verb = "G1" →
      plunge.parameters = [('Z', altUpd c alt), ('F', feedSpeed)] →
      SafeExpansion clearance travelSpeed feedSpeed (altUpd c alt) mid res →
      SafeExpansion clearance travelSpeed feedSpeed alt (c :: mid)
        (lift :: lat :: plunge :: res)

/-- The removal condition of claim C4: region type (lowercased) contains
"fill", the layer number modulo the frequency is nonzero, and the verb is not
G0. -/
def infillDoomed (layerIdx : List Nat) (typeTable : List (Nat × String)) (f : Nat)
    (i : Nat) (c : Cmd) : Bool :=
  (match getTypeE typeTable i with
   | .ok tv => containsSub (strLower tv) "fill"
   | .error _ => false) &&
  (match getLayer? layerIdx i with
   | some L => decide (¬ L % f = 0)
   | none => false) &&
  decide (¬ c.verb = "G0")

/-! ### Lemma layer: number printing/parsing round trips -/

theorem toDigit_digitChar {d : Nat} (h : d < 10) : toDigit (digitChar d) = d := by
  interval_cases d <;> rfl

theorem isDigit_digitChar {d : Nat} (h : d < 10) : (digitChar d).isDigit = true := by
  interval_cases d <;> rfl

theorem digit_ne {c d : Char} (h : c.isDigit = true) (hd : d.isDigit = false) : c ≠ d := by
  intro e; subst e; rw [h] at hd; cases hd

theorem not_sp_of_digit {c : Char} (h : c.isDigit = true) : isSp c = false := by
  have h1 : c ≠ ' ' := digit_ne h (by decide)
  have h2 : c ≠ '\t' := digit_ne h (by decide)
  simp [isSp, h1, h2]

theorem digitsRevF_val : ∀ fuel n, n ≤ fuel →
    (digitsRevF fuel n).foldr (fun c a => a * 10 + toDigit c) 0 = n := by
  intro fuel
  induction fuel with
  | zero => intro n h; interval_cases n; rfl
  | succ f ih =>
    intro n h
    by_cases hn : n = 0
    · subst hn; simp [digitsRevF]
    · rw [digitsRevF]
      simp only [if_neg hn, List.foldr_cons]
      rw [ih (n / 10) (by omega), toDigit_digitChar (Nat.mod_lt n (by omega))]
      omega

theorem digitsRevF_all_digits : ∀ fuel n, ∀ c ∈ digitsRevF fuel n, c.isDigit = true := by
  intro fuel
  induction fuel with
  | zero => intro n c hc; simp [digitsRevF] at hc
  | succ f ih =>
    intro n c hc
    rw [digitsRevF] at hc
    by_cases hn : n = 0
    · simp [hn] at hc
    · simp only [if_neg hn, List.mem_cons] at hc
      rcases hc with rfl | hc
      · exact isDigit_digitChar (Nat.mod_lt n (by omega))
      · exact ih _ c hc

theorem natVal_digits (n : Nat) : natVal (digitsRevF n n).reverse = n := by
  unfold natVal
  rw [List.foldl_reverse]
  exact digitsRevF_val n n le_rfl

theorem digitsRevF_ne_nil {n : Nat} (h : 0 < n) : digitsRevF n n ≠ [] := by
  cases n with
  | zero => omega
  | succ m => rw [digitsRevF]; simp

theorem parseInt?_digits {l : List Char} (hne : l ≠ []) (hd : ∀ c ∈ l, c.isDigit = true) :
    parseInt? l = some ((natVal l : Nat) : Int) := by
  cases l with
  | nil => exact absurd rfl hne
  | cons c rest =>
    have hc := hd c (List.mem_cons_self c rest)
    have h1 : c ≠ '-' := digit_ne hc (by decide)
    have h2 : c ≠ '+' := digit_ne hc (by decide)
    have hcore : (c :: rest) ≠ [] ∧ (c :: rest).all Char.isDigit := by
      refine ⟨by simp, ?_⟩
      rw [List.all_eq_true]
      exact fun x hx => hd x hx
    unfold parseInt?
    split
    · next heq => rw [List.cons.injEq] at heq; exact absurd heq.1 h1
    · next heq => rw [List.cons.injEq] at heq; exact absurd heq.1 h2
    · simp only [if_pos hcore]

theorem natStr_data (n : Nat) :
    (natStr n).data = if n = 0 then ['0'] else (digitsRevF n n).reverse := by
  by_cases h : n = 0 <;> simp [natStr, h]

theorem parseInt?_natStr (n : Nat) : parseInt? (natStr n).data = some ((n : Nat) : Int) := by
  rw [natStr_data]
  by_cases h : n = 0
  · subst h; rfl
  · rw [if_neg h]
    rw [parseInt?_digits]
    · rw [natVal_digits]
    · simp only [ne_eq, List.reverse_eq_nil_iff]
      exact digitsRevF_ne_nil (by omega)
    · intro c hc
      rw [List.mem_reverse] at hc
      exact digitsRevF_all_digits n n c hc

theorem natStr_all_digits (n : Nat) : ∀ c ∈ (natStr n).data, c.isDigit = true := by
  intro c hc
  rw [natStr_data] at hc
  by_cases h : n = 0
  · simp [h] at hc; subst hc; decide
  · rw [if_neg h, List.mem_reverse] at hc
    exact digitsRevF_all_digits n n c hc

theorem natStr_ne_nil (n : Nat) : (natStr n).data ≠ [] := by
  rw [natStr_data]
  by_cases h : n = 0
  · simp [h]
  · rw [if_neg h]
    simp only [ne_eq, List.reverse_eq_nil_iff]
    exact digitsRevF_ne_nil (by omega)

theorem parseInt?_neg_digits {l : List Char} (hne : l ≠ []) (hd : ∀ c ∈ l, c.isDigit = true) :
    parseInt? ('-' :: l) = some (-((natVal l : Nat) : Int)) := by
  have hstep : parseInt? ('-' :: l) =
      (if l ≠ [] ∧ l.all Char.isDigit then some ((natVal l : Nat) : Int) else none).map
        (fun n => -n) := rfl
  rw [hstep, if_pos ⟨hne, by rw [List.all_eq_true]; exact fun x hx => hd x hx⟩]
  rfl

theorem parseInt?_intStr (n : Int) : parseInt? (intStr n).data = some n := by
  rcases Int.lt_or_le n 0 with h | h
  · rw [intStr, if_pos h]
    have hdata : (("-" : String) ++ natStr n.natAbs).data = '-' :: (natStr n.natAbs).data := by
      rw [String.data_append]; rfl
    rw [hdata, parseInt?_neg_digits (natStr_ne_nil _) (natStr_all_digits _)]
    have : natVal (natStr n.natAbs).data = n.natAbs := by
      rw [natStr_data]
      by_cases h0 : n.natAbs = 0
      · omega
      · rw [if_neg h0]; exact natVal_digits _
    rw [this]
    congr 1
    omega
  · rw [intStr, if_neg (by omega)]
    rw [parseInt?_natStr]
    congr 1
    omega

theorem natVal_natStr (n : Nat) : natVal (natStr n).data = n := by
  rw [natStr_data]
  by_cases h0 : n = 0
  · simp [h0]; rfl
  · rw [if_neg h0]; exact natVal_digits _

theorem breakExp_no_e {l : List Char} (h : ∀ c ∈ l, ¬(c = 'e' ∨ c = 'E')) :
    breakExp l = (l, none) := by
  induction l with
  | nil => rfl
  | cons c cs ih =>
    rw [breakExp, if_neg (h c (List.mem_cons_self c cs)),
      ih (fun x hx => h x (List.mem_cons_of_mem c hx))]

theorem takeWhile_app {p : Char → Bool} {w r : List Char} {c : Char}
    (hw : ∀ x ∈ w, p x = true) (hc : p c = false) :
    (w ++ c :: r).takeWhile p = w := by
  induction w with
  | nil => simp [List.takeWhile_cons, hc]
  | cons a w' ih =>
    rw [List.cons_append, List.takeWhile_cons, hw a (List.mem_cons_self a w')]
    rw [ih (fun x hx => hw x (List.mem_cons_of_mem a hx))]
    simp

theorem dropWhile_app {p : Char → Bool} {w r : List Char} {c : Char}
    (hw : ∀ x ∈ w, p x = true) (hc : p c = false) :
    (w ++ c :: r).dropWhile p = c :: r := by
  induction w with
  | nil => simp [List.dropWhile_cons, hc]
  | cons a w' ih =>
    rw [List.cons_append, List.dropWhile_cons]
    rw [hw a (List.mem_cons_self a w')]
    simp only [if_pos rfl]
    exact ih (fun x hx => hw x (List.mem_cons_of_mem a hx))

theorem natVal_from (l : List Char) : ∀ a : Nat,
    l.foldl (fun a c => a * 10 + toDigit c) a = a * 10 ^ l.length + natVal l := by
  induction l with
  | nil => intro a; simp [natVal]
  | cons c rest ih =>
    intro a
    have hv : natVal (c :: rest) = toDigit c * 10 ^ rest.length + natVal rest := by
      show (c :: rest).foldl (fun a c => a * 10 + toDigit c) 0 = _
      rw [List.foldl_cons, ih (0 * 10 + toDigit c)]
      simp
    rw [List.foldl_cons, ih (a * 10 + toDigit c), hv, List.length_cons]
    ring

theorem natVal_append (xs ys : List Char) :
    natVal (xs ++ ys) = natVal xs * 10 ^ ys.length + natVal ys := by
  show (xs ++ ys).foldl (fun a c => a * 10 + toDigit c) 0 = _
  rw [List.foldl_append]
  exact natVal_from ys (natVal xs)

theorem natVal_replicate_zero (k : Nat) : natVal (List.replicate k '0') = 0 := by
  induction k with
  | zero => rfl
  | succ n ih =>
    show (List.replicate (n + 1) '0').foldl (fun a c => a * 10 + toDigit c) 0 = 0
    rw [List.replicate_succ, List.foldl_cons]
    exact ih

theorem splitSign_digit {c : Char} {l : List Char} (h : c.isDigit = true) :
    splitSign (c :: l) = (false, c :: l) := by
  have h1 : c ≠ '-' := digit_ne h (by decide)
  have h2 : c ≠ '+' := digit_ne h (by decide)
  unfold splitSign
  split
  · next heq => rw [List.cons.injEq] at heq; exact absurd heq.1 h1
  · next heq => rw [List.cons.injEq] at heq; exact absurd heq.1 h2
  · rfl

theorem parseMant_shape {W Fr : List Char} (hWne : W ≠ []) (hW : ∀ c ∈ W, c.isDigit = true)
    (hFr : ∀ c ∈ Fr, c.isDigit = true) :
    parseMant (W ++ '.' :: Fr) = some (natVal (W ++ Fr), Fr.length) := by
  unfold parseMant
  rw [takeWhile_app hW (by decide), dropWhile_app hW (by decide)]
  simp only []
  rw [if_pos ⟨by rw [List.all_eq_true]; exact fun x hx => hFr x hx, Or.inl hWne⟩]

theorem digit_not_e {c : Char} (h : c.isDigit = true) : ¬(c = 'e' ∨ c = 'E') := by
  rintro (rfl | rfl) <;> cases h

theorem breakExp_dotted {W Fr : List Char} (hW : ∀ c ∈ W, c.isDigit = true)
    (hFr : ∀ c ∈ Fr, c.isDigit = true) :
    breakExp (W ++ '.' :: Fr) = (W ++ '.' :: Fr, none) := by
  refine breakExp_no_e ?_
  intro c hc
  rw [List.mem_append, List.mem_cons] at hc
  rcases hc with hc | rfl | hc
  · exact digit_not_e (hW c hc)
  · decide
  · exact digit_not_e (hFr c hc)

theorem parseFloat?_shape_pos {W Fr : List Char} (hWne : W ≠ [])
    (hW : ∀ c ∈ W, c.isDigit = true) (hFr : ∀ c ∈ Fr, c.isDigit = true) :
    parseFloat? (W ++ '.' :: Fr) = some (mkFloat false (natVal (W ++ Fr)) Fr.length 0) := by
  obtain ⟨w0, W', rfl⟩ : ∃ w0 W', W = w0 :: W' := by
    cases W with
    | nil => exact absurd rfl hWne
    | cons a b => exact ⟨a, b, rfl⟩
  have hss : splitSign (w0 :: W' ++ '.' :: Fr) = (false, w0 :: W' ++ '.' :: Fr) := by
    rw [List.cons_append]
    exact splitSign_digit (hW w0 (List.mem_cons_self w0 W'))
  unfold parseFloat?
  simp only [hss, breakExp_dotted hW hFr, parseMant_shape hWne hW hFr]

theorem parseFloat?_shape_neg {W Fr : List Char} (hWne : W ≠ [])
    (hW : ∀ c ∈ W, c.isDigit = true) (hFr : ∀ c ∈ Fr, c.isDigit = true) :
    parseFloat? ('-' :: (W ++ '.' :: Fr)) =
      some (mkFloat true (natVal (W ++ Fr)) Fr.length 0) := by
  have hss : splitSign ('-' :: (W ++ '.' :: Fr)) = (true, W ++ '.' :: Fr) := rfl
  unfold parseFloat?
  simp only [hss, breakExp_dotted hW hFr, parseMant_shape hWne hW hFr]

theorem decStr_shape (m : Int) (e : Nat) :
    ∃ W Fr : List Char,
      (decStr m e).data = (if m < 0 then ['-'] else []) ++ (W ++ '.' :: Fr) ∧
      W ≠ [] ∧ (∀ c ∈ W, c.isDigit = true) ∧ (∀ c ∈ Fr, c.isDigit = true) ∧
      natVal (W ++ Fr) = m.natAbs * 10 ^ (Fr.length - e) ∧ Fr.length = max e 1 := by
  by_cases he : e = 0
  · subst he
    refine ⟨(natStr m.natAbs).data, ['0'], ?_, natStr_ne_nil _, natStr_all_digits _,
      by intro c hc; simp at hc; subst hc; decide, ?_, by simp⟩
    · have : decStr m 0 = (if m < 0 then "-" else "") ++ natStr m.natAbs ++ ".0" := rfl
      rw [this, String.data_append, String.data_append]
      by_cases hm : m < 0
      · simp only [if_pos hm]; rfl
      · simp only [if_neg hm]; rfl
    · rw [natVal_append, natVal_natStr]
      simp [natVal]
      rfl
  · -- e > 0 branch of decStr
    set a := m.natAbs with ha
    set ds0 := (digitsRevF a a).reverse with hds0
    set ds := if ds0.length < e + 1 then List.replicate (e + 1 - ds0.length) '0' ++ ds0 else ds0
      with hds
    have hdsdig : ∀ c ∈ ds, c.isDigit = true := by
      intro c hc
      rw [hds] at hc
      have h0 : ∀ c ∈ ds0, c.isDigit = true := by
        intro x hx
        rw [hds0, List.mem_reverse] at hx
        exact digitsRevF_all_digits a a x hx
      by_cases hlt : ds0.length < e + 1
      · rw [if_pos hlt, List.mem_append] at hc
        rcases hc with hc | hc
        · rw [List.eq_of_mem_replicate hc]; decide
        · exact h0 c hc
      · rw [if_neg hlt] at hc; exact h0 c hc
    have hdslen : e + 1 ≤ ds.length := by
      rw [hds]
      by_cases hlt : ds0.length < e + 1
      · rw [if_pos hlt, List.length_append, List.length_replicate]; omega
      · rw [if_neg hlt]; omega
    have hdsval : natVal ds = a := by
      have h0 : natVal ds0 = a := by
        rw [hds0]
        by_cases ha0 : a = 0
        · rw [ha0]; rfl
        · exact natVal_digits a
      rw [hds]
      by_cases hlt : ds0.length < e + 1
      · rw [if_pos hlt, natVal_append, natVal_replicate_zero, h0]; ring
      · rw [if_neg hlt]; exact h0
    refine ⟨ds.take (ds.length - e), ds.drop (ds.length - e), ?_, ?_, ?_, ?_, ?_, ?_⟩
    · have hd : decStr m e =
          (if m < 0 then "-" else "") ++ String.mk (ds.take (ds.length - e)) ++ "." ++
            String.mk (ds.drop (ds.length - e)) := by
        rw [decStr]
        simp only [if_neg he]
      rw [hd, String.data_append, String.data_append, String.data_append]
      by_cases hm : m < 0 <;> simp [hm, List.append_assoc]
    · have : (ds.take (ds.length - e)).length = ds.length - e := by
        rw [List.length_take]; omega
      intro hnil
      rw [hnil] at this
      simp at this
      omega
    · intro c hc; exact hdsdig c (List.mem_of_mem_take hc)
    · intro c hc; exact hdsdig c (List.mem_of_mem_drop hc)
    · rw [List.take_append_drop, hdsval, List.length_drop]
      have : ds.length - (ds.length - e) = e := by omega
      rw [this]
      simp
    · rw [List.length_drop]; omega

theorem normF_self {m : Int} {e : Nat} (h : e = 0 ∨ ¬ m.emod 10 = 0) : normF e m e = (m, e) := by
  cases e with
  | zero => rfl
  | succ f =>
    rw [normF, if_neg (Nat.succ_ne_zero f)]
    rcases h with h | h
    · exact absurd h (Nat.succ_ne_zero f)
    · rw [if_neg h]

theorem mkFloat_zero_x (neg : Bool) (v k : Nat) :
    mkFloat neg v k 0 = normDec (if neg then -(v : Int) else (v : Int)) k := by
  unfold mkFloat
  rw [if_pos (by omega : (0 : Int) ≤ ((k : Nat) : Int))]
  have harg : (((k : Nat) : Int) - 0).toNat = k := by omega
  rw [harg]

theorem mkFloat_decStr_val {m : Int} {e : Nat} (neg : Bool) (hneg : neg = decide (m < 0))
    (h : e = 0 ∨ ¬ m.emod 10 = 0) :
    mkFloat neg (m.natAbs * 10 ^ (max e 1 - e)) (max e 1) 0 = PyVal.float m e := by
  rw [mkFloat_zero_x]
  have hm0 : (if neg then -((m.natAbs * 10 ^ (max e 1 - e) : Nat) : Int)
      else ((m.natAbs * 10 ^ (max e 1 - e) : Nat) : Int)) = m * 10 ^ (max e 1 - e) := by
    subst hneg
    by_cases hm : m < 0
    · rw [if_pos (by simp [hm])]
      push_cast
      rw [abs_of_neg hm]
      ring
    · rw [if_neg (by simp [hm])]
      push_cast
      rw [abs_of_nonneg (by omega : (0 : Int) ≤ m)]
  rw [hm0]
  by_cases he : e = 0
  · subst he
    rw [Nat.zero_max]
    have hp : (10 : Int) ^ (1 - 0) = 10 := by norm_num
    rw [hp]
    have h1 : (m * 10).emod 10 = 0 := Int.mul_emod_left m 10
    have h2 : (m * 10).ediv 10 = m := Int.mul_ediv_cancel m (by norm_num)
    unfold normDec
    rw [show normF 1 (m * 10) 1 = (m, 0) from by
      rw [normF, if_neg one_ne_zero, if_pos h1, h2]
      rfl]
  · have hmax : max e 1 = e := by omega
    rw [hmax, Nat.sub_self, pow_zero, mul_one]
    unfold normDec
    rw [normF_self h]

theorem parseInt?_none_of_dot {l : List Char} (h : '.' ∈ l) : parseInt? l = none := by
  have key : ∀ rest : List Char, '.' ∈ rest →
      (if rest ≠ [] ∧ rest.all Char.isDigit then some ((natVal rest : Nat) : Int) else none)
        = none := by
    intro rest hr
    rw [if_neg]
    rintro ⟨-, hall⟩
    exact absurd (List.all_eq_true.mp hall '.' hr) (by decide)
  unfold parseInt?
  split
  · next rest =>
    rw [List.mem_cons] at h
    rcases h with h | h
    · exact absurd h (by decide)
    · show Option.map (fun n => -n)
          (if rest ≠ [] ∧ rest.all Char.isDigit then some ((natVal rest : Nat) : Int) else none)
          = none
      rw [key _ h]
      rfl
  · next rest =>
    rw [List.mem_cons] at h
    rcases h with h | h
    · exact absurd h (by decide)
    · show (if rest ≠ [] ∧ rest.all Char.isDigit then some ((natVal rest : Nat) : Int) else none)
          = none
      exact key _ h
  · show (if l ≠ [] ∧ l.all Char.isDigit then some ((natVal l : Nat) : Int) else none) = none
    exact key l h

theorem parseFloat?_decStr {m : Int} {e : Nat} (h : e = 0 ∨ ¬ m.emod 10 = 0) :
    parseFloat? (decStr m e).data = some (PyVal.float m e) := by
  obtain ⟨W, Fr, hdata, hWne, hW, hFr, hval, hlen⟩ := decStr_shape m e
  by_cases hm : m < 0
  · rw [hdata, if_pos hm, List.singleton_append, parseFloat?_shape_neg hWne hW hFr, hval, hlen]
    rw [mkFloat_decStr_val true (by simp [hm]) h]
  · rw [hdata, if_neg hm, List.nil_append, parseFloat?_shape_pos hWne hW hFr, hval, hlen]
    rw [mkFloat_decStr_val false (by simp [hm]) h]

theorem getNum_pyStr {v : PyVal} (h : v.canonical = true) : getNum v.pyStr.data = v := by
  cases v with
  | int n =>
    unfold getNum PyVal.pyStr
    rw [parseInt?_intStr]
  | float m e =>
    have hc : e = 0 ∨ ¬ m.emod 10 = 0 := of_decide_eq_true h
    have hdot : '.' ∈ (decStr m e).data := by
      obtain ⟨W, Fr, hdata, -, -, -, -, -⟩ := decStr_shape m e
      rw [hdata]
      simp
    unfold getNum PyVal.pyStr
    rw [parseInt?_none_of_dot hdot, parseFloat?_decStr hc]
  | str s =>
    rw [PyVal.canonical, Bool.and_eq_true, Bool.and_eq_true] at h
    obtain ⟨⟨h1, h2⟩, -⟩ := h
    unfold getNum PyVal.pyStr
    rw [Option.isNone_iff_eq_none] at h1 h2
    rw [h1, h2]

theorem normF_canon : ∀ fuel (m : Int) (e : Nat), e ≤ fuel →
    (normF fuel m e).2 = 0 ∨ ¬ (normF fuel m e).1.emod 10 = 0 := by
  intro fuel
  induction fuel with
  | zero =>
    intro m e h
    left
    have : e = 0 := by omega
    rw [this]
    rfl
  | succ f ih =>
    intro m e h
    rw [normF]
    by_cases he : e = 0
    · rw [if_pos he]; left; rfl
    · rw [if_neg he]
      by_cases hm : m.emod 10 = 0
      · rw [if_pos hm]; exact ih _ _ (by omega)
      · rw [if_neg hm]; right; exact hm

theorem normDec_canonical (m : Int) (e : Nat) : (normDec m e).canonical = true := by
  show decide ((normF e m e).2 = 0 ∨ ¬ (normF e m e).1.emod 10 = 0) = true
  rw [decide_eq_true_eq]
  exact normF_canon e m e le_rfl

theorem mkFloat_canonical (neg : Bool) (v k : Nat) (x : Int) :
    (mkFloat neg v k x).canonical = true := by
  unfold mkFloat
  by_cases h : x ≤ (k : Int)
  · rw [if_pos h]; exact normDec_canonical _ _
  · rw [if_neg h]; exact normDec_canonical _ _

theorem parseFloat?_canonical {l : List Char} {v : PyVal} (h : parseFloat? l = some v) :
    v.canonical = true := by
  unfold parseFloat? at h
  simp only [] at h
  rcases hpm : parseMant (breakExp (splitSign l).2).1 with _ | ⟨vk, k⟩
  · rw [hpm] at h; cases h
  · rw [hpm] at h
    rcases hbe : (breakExp (splitSign l).2).2 with _ | ex
    · rw [hbe] at h
      simp only [Option.some.injEq] at h
      rw [← h]
      exact mkFloat_canonical _ _ _ _
    · rw [hbe] at h
      simp only [Option.map_eq_some'] at h
      obtain ⟨x, -, hx⟩ := h
      rw [← hx]
      exact mkFloat_canonical _ _ _ _

theorem getNum_canonical {l : List Char} (hl : ∀ c ∈ l, canonKey c = true) :
    (getNum l).canonical = true := by
  unfold getNum
  rcases hpi : parseInt? l with _ | n
  · rcases hpf : parseFloat? l with _ | v
    · show ((parseInt? (String.mk l).data).isNone && (parseFloat? (String.mk l).data).isNone &&
        (String.mk l).data.all (fun c => canonKey c)) = true
      show ((parseInt? l).isNone && (parseFloat? l).isNone && l.all (fun c => canonKey c)) = true
      rw [hpi, hpf, Bool.and_eq_true, Bool.and_eq_true, List.all_eq_true]
      exact ⟨⟨rfl, rfl⟩, hl⟩
    · exact parseFloat?_canonical hpf
  · rfl

theorem dictSet_mem {ps : List (Char × PyVal)} {k : Char} {v : PyVal} {p : Char × PyVal}
    (h : p ∈ dictSet ps k v) : p ∈ ps ∨ p = (k, v) := by
  unfold dictSet at h
  by_cases hc : ps.any (fun p => p.1 = k)
  · rw [if_pos hc, List.mem_map] at h
    obtain ⟨q, hq, he⟩ := h
    by_cases hqk : q.1 = k
    · rw [if_pos hqk] at he; exact Or.inr he.symm
    · rw [if_neg hqk] at he; left; rw [← he]; exact hq
  · rw [if_neg hc, List.mem_append, List.mem_singleton] at h
    exact h

theorem dictOf_mem {l : List (Char × PyVal)} {p : Char × PyVal} (h : p ∈ dictOf l) : p ∈ l := by
  suffices key : ∀ (l acc : List (Char × PyVal)),
      p ∈ l.foldl (fun d q => dictSet d q.1 q.2) acc → p ∈ acc ∨ p ∈ l by
    rcases key l [] h with h' | h'
    · cases h'
    · exact h'
  intro l
  induction l with
  | nil => intro acc h; exact Or.inl h
  | cons q rest ih =>
    intro acc h
    rw [List.foldl_cons] at h
    rcases ih (dictSet acc q.1 q.2) h with h' | h'
    · rcases dictSet_mem h' with h'' | h''
      · exact Or.inl h''
      · right
        rw [List.mem_cons]
        left
        rw [h'']
    · right
      exact List.mem_cons_of_mem q h'

theorem dictSet_keys {ps : List (Char × PyVal)} {k : Char} {v : PyVal} :
    (dictSet ps k v).map Prod.fst = ps.map Prod.fst ∨
      ((dictSet ps k v).map Prod.fst = ps.map Prod.fst ++ [k] ∧
        ¬ k ∈ ps.map Prod.fst) := by
  unfold dictSet
  by_cases hc : ps.any (fun p => p.1 = k)
  · rw [if_pos hc]
    left
    rw [List.map_map]
    refine List.map_congr_left ?_
    intro p hp
    by_cases hpk : p.1 = k
    · simp only [Function.comp_apply, if_pos hpk]
      exact hpk.symm
    · simp only [Function.comp_apply, if_neg hpk]
  · rw [if_neg hc]
    right
    constructor
    · rw [List.map_append]
      rfl
    · intro hk
      rw [List.mem_map] at hk
      obtain ⟨p, hp, he⟩ := hk
      rw [List.any_eq_true] at hc
      exact hc ⟨p, hp, by simp [he]⟩

theorem dictOf_keys_nodup (l : List (Char × PyVal)) : ((dictOf l).map Prod.fst).Nodup := by
  suffices key : ∀ (l acc : List (Char × PyVal)), (acc.map Prod.fst).Nodup →
      ((l.foldl (fun d q => dictSet d q.1 q.2) acc).map Prod.fst).Nodup by
    exact key l [] List.nodup_nil
  intro l
  induction l with
  | nil => intro acc h; exact h
  | cons q rest ih =>
    intro acc h
    rw [List.foldl_cons]
    refine ih _ ?_
    rcases @dictSet_keys acc q.1 q.2 with h' | ⟨h', hk⟩
    · rw [h']; exact h
    · rw [h']
      rw [List.nodup_append]
      exact ⟨h, List.nodup_singleton _, by simpa using hk⟩

theorem dictOf_self {l : List (Char × PyVal)} (h : (l.map Prod.fst).Nodup) : dictOf l = l := by
  suffices key : ∀ (l acc : List (Char × PyVal)), ((acc ++ l).map Prod.fst).Nodup →
      l.foldl (fun d q => dictSet d q.1 q.2) acc = acc ++ l by
    have := key l [] (by simpa using h)
    simpa using this
  intro l
  induction l with
  | nil => intro acc h; simp
  | cons q rest ih =>
    intro acc h
    rw [List.foldl_cons]
    have hnotin : ¬ (acc.any fun p => p.1 = q.1) = true := by
      intro hc
      rw [List.any_eq_true] at hc
      obtain ⟨p, hp, hpe⟩ := hc
      have hmem : q.1 ∈ acc.map Prod.fst := by
        rw [List.mem_map]
        exact ⟨p, hp, of_decide_eq_true hpe⟩
      have hmem2 : q.1 ∈ (q :: rest).map Prod.fst := by simp
      rw [List.map_append, List.nodup_append] at h
      exact h.2.2 hmem hmem2
    have hset : dictSet acc q.1 q.2 = acc ++ [q] := by
      unfold dictSet
      rw [if_neg hnotin]
    rw [hset]
    have hnd : (((acc ++ [q]) ++ rest).map Prod.fst).Nodup := by
      rw [List.append_assoc]
      simpa using h
    have := ih (acc ++ [q]) hnd
    rw [this, List.append_assoc]
    simp

theorem breakSemi_no_semi : ∀ l : List Char, ';' ∉ (breakSemi l).1 := by
  intro l
  induction l with
  | nil => simp [breakSemi]
  | cons c cs ih =>
    rw [breakSemi]
    by_cases hc : c = ';'
    · rw [if_pos hc]; simp
    · rw [if_neg hc]
      simp only [List.mem_cons, not_or]
      exact ⟨fun he => hc he.symm, ih⟩

theorem breakSemi_none {l : List Char} (h : ';' ∉ l) : breakSemi l = (l, []) := by
  induction l with
  | nil => rfl
  | cons c cs ih =>
    rw [List.mem_cons, not_or] at h
    rw [breakSemi, if_neg (fun he => h.1 he.symm), ih h.2]

theorem rstripSp_mem {l : List Char} {c : Char} (h : c ∈ rstripSp l) : c ∈ l := by
  unfold rstripSp at h
  rw [List.mem_reverse] at h
  have hsub : List.Sublist (List.dropWhile (fun c => c = ' ') l.reverse) l.reverse :=
    List.dropWhile_sublist _
  have := hsub.mem h
  rwa [List.mem_reverse] at this

theorem rstripSp_last {l : List Char} {x : Char} (hx : ¬ x = ' ') :
    rstripSp (l ++ [x]) = l ++ [x] := by
  unfold rstripSp
  rw [List.reverse_append]
  simp only [List.reverse_singleton, List.singleton_append, List.dropWhile_cons]
  rw [if_neg (by simpa using hx)]
  simp

theorem splitWsAcc_shift : ∀ (w : List Char) (acc rest : List Char),
    (∀ c ∈ w, isSp c = false) →
    splitWsAcc acc (w ++ rest) = splitWsAcc (w.reverse ++ acc) rest := by
  intro w
  induction w with
  | nil => intro acc rest _; simp
  | cons c w' ih =>
    intro acc rest hw
    rw [List.cons_append, splitWsAcc]
    rw [hw c (List.mem_cons_self c w')]
    show splitWsAcc (c :: acc) (w' ++ rest) = _
    rw [ih (c :: acc) rest (fun x hx => hw x (List.mem_cons_of_mem c hx))]
    congr 1
    simp

theorem splitWsAcc_space (acc rest : List Char) :
    splitWsAcc acc (' ' :: rest) =
      if acc = [] then splitWsAcc [] rest else acc.reverse :: splitWsAcc [] rest := by
  rw [splitWsAcc]
  rfl

theorem splitWsAcc_words : ∀ (toks : List (List Char)) (w : List Char),
    w ≠ [] → (∀ c ∈ w, isSp c = false) →
    (∀ t ∈ toks, t ≠ [] ∧ ∀ c ∈ t, isSp c = false) →
    splitWsAcc [] (w ++ (toks.map (fun t => ' ' :: t)).flatten) = w :: toks := by
  intro toks
  induction toks with
  | nil =>
    intro w hne hw _
    have hsh := splitWsAcc_shift w [] [] hw
    simp only [List.append_nil] at hsh
    have h0 : (List.map (fun t => ' ' :: t) ([] : List (List Char))).flatten = [] := rfl
    rw [h0, List.append_nil, hsh]
    rw [splitWsAcc]
    rw [if_neg (by simpa using hne)]
    simp
  | cons t rest ih =>
    intro w hne hw htoks
    have hjoin : ((t :: rest).map (fun t => ' ' :: t)).flatten =
        ' ' :: (t ++ (rest.map (fun t => ' ' :: t)).flatten) := by
      simp
    rw [hjoin, splitWsAcc_shift w [] _ hw]
    rw [List.append_nil, splitWsAcc_space]
    rw [if_neg (by simpa using hne)]
    rw [List.reverse_reverse]
    rw [ih t (htoks t (List.mem_cons_self t rest)).1 (htoks t (List.mem_cons_self t rest)).2
      (fun u hu => htoks u (List.mem_cons_of_mem t hu))]

theorem ends_nonsp : ∀ (toks : List (List Char)) (verb : List Char),
    (∃ v' x, verb = v' ++ [x] ∧ isSp x = false) →
    (∀ t ∈ toks, t ≠ [] ∧ ∀ c ∈ t, isSp c = false) →
    ∃ l' x, verb ++ (toks.map (fun t => ' ' :: t)).flatten = l' ++ [x] ∧ isSp x = false := by
  intro toks
  induction toks with
  | nil =>
    intro verb hv _
    obtain ⟨v', x, he, hx⟩ := hv
    exact ⟨v', x, by simpa using he, hx⟩
  | cons t rest ih =>
    intro verb hv htoks
    obtain ⟨hne, hchars⟩ := htoks t (List.mem_cons_self t rest)
    have hdecomp : t.dropLast ++ [t.getLast hne] = t := List.dropLast_append_getLast hne
    have hstep : verb ++ ((t :: rest).map (fun t => ' ' :: t)).flatten =
        (verb ++ ' ' :: t) ++ (rest.map (fun t => ' ' :: t)).flatten := by
      simp [List.append_assoc]
    rw [hstep]
    refine ih (verb ++ ' ' :: t) ⟨verb ++ ' ' :: t.dropLast, t.getLast hne, ?_, ?_⟩
      (fun u hu => htoks u (List.mem_cons_of_mem t hu))
    · rw [List.append_assoc]
      congr 1
      rw [List.cons_append, hdecomp]
    · exact hchars _ (List.getLast_mem hne)

theorem canonKey_spec {c : Char} (h : canonKey c = true) : isSp c = false ∧ ¬ c = ';' := by
  have := of_decide_eq_true h
  exact ⟨by simpa using this.1, this.2⟩

theorem canonKey_digit {c : Char} (h : c.isDigit = true) : canonKey c = true := by
  apply decide_eq_true
  exact ⟨by simp [not_sp_of_digit h], digit_ne h (by decide)⟩

theorem splitWsAcc_tokens : ∀ (l acc : List Char), (∀ c ∈ acc, isSp c = false) →
    ∀ t ∈ splitWsAcc acc l, t ≠ [] ∧ ∀ c ∈ t, isSp c = false ∧ (c ∈ acc ∨ c ∈ l) := by
  intro l
  induction l with
  | nil =>
    intro acc hacc t ht
    rw [splitWsAcc] at ht
    by_cases h : acc = []
    · rw [if_pos h] at ht; cases ht
    · rw [if_neg h] at ht
      rw [List.mem_singleton] at ht
      subst ht
      refine ⟨by simpa using h, ?_⟩
      intro c hc
      rw [List.mem_reverse] at hc
      exact ⟨hacc c hc, Or.inl hc⟩
  | cons a cs ih =>
    intro acc hacc t ht
    rw [splitWsAcc] at ht
    by_cases hsp : isSp a = true
    · rw [if_pos hsp] at ht
      by_cases hc : acc = []
      · rw [if_pos hc] at ht
        obtain ⟨hne, hrest⟩ := ih [] (by simp) t ht
        refine ⟨hne, fun c hcm => ⟨(hrest c hcm).1, ?_⟩⟩
        exact Or.inr (List.mem_cons_of_mem a ((hrest c hcm).2.resolve_left (by simp)))
      · rw [if_neg hc] at ht
        rw [List.mem_cons] at ht
        rcases ht with rfl | ht
        · refine ⟨by simpa using hc, ?_⟩
          intro c hcm
          rw [List.mem_reverse] at hcm
          exact ⟨hacc c hcm, Or.inl hcm⟩
        · obtain ⟨hne, hrest⟩ := ih [] (by simp) t ht
          refine ⟨hne, fun c hcm => ⟨(hrest c hcm).1, ?_⟩⟩
          exact Or.inr (List.mem_cons_of_mem a ((hrest c hcm).2.resolve_left (by simp)))
    · rw [if_neg hsp] at ht
      have haccc : ∀ c ∈ a :: acc, isSp c = false := by
        intro c hcm
        rw [List.mem_cons] at hcm
        rcases hcm with rfl | hcm
        · simpa using hsp
        · exact hacc c hcm
      obtain ⟨hne, hrest⟩ := ih (a :: acc) haccc t ht
      refine ⟨hne, ?_⟩
      intro c hcm
      obtain ⟨h1, h2⟩ := hrest c hcm
      refine ⟨h1, ?_⟩
      rcases h2 with h2 | h2
      · rw [List.mem_cons] at h2
        rcases h2 with rfl | h2
        · exact Or.inr (List.mem_cons_self _ _)
        · exact Or.inl h2
      · exact Or.inr (List.mem_cons_of_mem a h2)

theorem tokenizeE_intercalated (verb : List Char) (toks : List (List Char))
    (hv : verb ≠ []) (hvc : ∀ c ∈ verb, canonKey c = true)
    (ht : ∀ t ∈ toks, t ≠ [] ∧ ∀ c ∈ t, canonKey c = true) :
    tokenizeE (verb ++ (toks.map (fun t => ' ' :: t)).flatten) =
      .ok ⟨String.mk verb, dictOf (toks.map (fun t => (t.headD ' ', getNum t.tail))), ""⟩ := by
  have hvsp : ∀ c ∈ verb, isSp c = false := fun c hc => (canonKey_spec (hvc c hc)).1
  have htsp : ∀ t ∈ toks, t ≠ [] ∧ ∀ c ∈ t, isSp c = false :=
    fun t htm => ⟨(ht t htm).1, fun c hc => (canonKey_spec ((ht t htm).2 c hc)).1⟩
  have hnosemi : ';' ∉ verb ++ (toks.map (fun t => ' ' :: t)).flatten := by
    rw [List.mem_append]
    rintro (hc | hc)
    · exact (canonKey_spec (hvc ';' hc)).2 rfl
    · rw [List.mem_flatten] at hc
      obtain ⟨u, hu, hcu⟩ := hc
      rw [List.mem_map] at hu
      obtain ⟨t, htm, rfl⟩ := hu
      rw [List.mem_cons] at hcu
      rcases hcu with he | hcu
      · exact absurd he (by decide)
      · exact (canonKey_spec ((ht t htm).2 ';' hcu)).2 rfl
  have hbs : breakSemi (verb ++ (toks.map (fun t => ' ' :: t)).flatten) =
      (verb ++ (toks.map (fun t => ' ' :: t)).flatten, []) := breakSemi_none hnosemi
  have hrs : rstripSp (verb ++ (toks.map (fun t => ' ' :: t)).flatten) =
      verb ++ (toks.map (fun t => ' ' :: t)).flatten := by
    obtain ⟨l', x, he, hx⟩ := ends_nonsp toks verb
      ⟨verb.dropLast, verb.getLast hv, (List.dropLast_append_getLast hv).symm,
        hvsp _ (List.getLast_mem hv)⟩ htsp
    rw [he]
    refine rstripSp_last ?_
    intro hxe
    rw [hxe] at hx
    simp [isSp] at hx
  have hne : verb ++ (toks.map (fun t => ' ' :: t)).flatten ≠ [] := by
    intro h0
    rw [List.append_eq_nil] at h0
    exact hv h0.1
  have hsw := splitWsAcc_words toks verb hv hvsp htsp
  unfold tokenizeE
  simp only [hbs, hrs, hne, hsw]
  simp
  rfl

theorem tokenizeE_canonical {l : List Char} {c : Cmd} (h : tokenizeE l = .ok c) :
    c.canonical = true := by
  unfold tokenizeE at h
  by_cases hcp : rstripSp (breakSemi l).1 = []
  · rw [if_pos hcp] at h
    simp only [Except.ok.injEq] at h
    subst h
    rfl
  · rw [if_neg hcp] at h
    rcases hws : splitWsAcc [] (rstripSp (breakSemi l).1) with _ | ⟨verb, ps⟩
    · rw [hws] at h; cases h
    · rw [hws] at h
      simp only [Except.ok.injEq] at h
      subst h
      have hsemi : ∀ ch ∈ rstripSp (breakSemi l).1, ¬ ch = ';' := by
        intro ch hch he
        subst he
        exact breakSemi_no_semi l (rstripSp_mem hch)
      have hcanon : ∀ t ∈ verb :: ps, t ≠ [] ∧ ∀ ch ∈ t, canonKey ch = true := by
        intro t htm
        obtain ⟨hne, hch⟩ := splitWsAcc_tokens (rstripSp (breakSemi l).1) [] (by simp) t
          (by rw [hws]; exact htm)
        refine ⟨hne, fun ch hchm => ?_⟩
        obtain ⟨hsp, hmem⟩ := hch ch hchm
        have hmem' : ch ∈ rstripSp (breakSemi l).1 := hmem.resolve_left (by simp)
        apply decide_eq_true
        exact ⟨by simpa using hsp, hsemi ch hmem'⟩
      unfold Cmd.canonical
      rw [Bool.and_eq_true]
      constructor
      · have hvne : verb ≠ [] := (hcanon verb (List.mem_cons_self verb ps)).1
        rw [if_neg (by
          intro he
          exact hvne (congrArg String.data he))]
        rw [List.all_eq_true]
        exact fun ch hch => (hcanon verb (List.mem_cons_self verb ps)).2 ch hch
      · unfold canonParams
        rw [Bool.and_eq_true]
        constructor
        · rw [List.all_eq_true]
          intro p hp
          have hp' := dictOf_mem hp
          rw [List.mem_map] at hp'
          obtain ⟨t, htm, rfl⟩ := hp'
          obtain ⟨hne, hch⟩ := hcanon t (List.mem_cons_of_mem _ htm)
          rw [Bool.and_eq_true]
          obtain ⟨c0, t', rfl⟩ : ∃ c0 t', t = c0 :: t' := by
            cases t with
            | nil => exact absurd rfl hne
            | cons a b => exact ⟨a, b, rfl⟩
          exact ⟨hch c0 (List.mem_cons_self c0 t'),
            getNum_canonical (fun ch hm => hch ch (List.mem_cons_of_mem c0 hm))⟩
        · exact decide_eq_true (dictOf_keys_nodup _)

theorem intStr_canonKey (n : Int) : ∀ c ∈ (intStr n).data, canonKey c = true := by
  intro c hc
  unfold intStr at hc
  by_cases h : n < 0
  · rw [if_pos h, String.data_append] at hc
    rw [List.mem_append] at hc
    rcases hc with hc | hc
    · have : c = '-' := by simpa using hc
      subst this
      decide
    · exact canonKey_digit (natStr_all_digits _ c hc)
  · rw [if_neg h] at hc
    exact canonKey_digit (natStr_all_digits _ c hc)

theorem decStr_canonKey (m : Int) (e : Nat) : ∀ c ∈ (decStr m e).data, canonKey c = true := by
  intro c hc
  obtain ⟨W, Fr, hdata, -, hW, hFr, -, -⟩ := decStr_shape m e
  rw [hdata, List.mem_append] at hc
  rcases hc with hc | hc
  · by_cases h : m < 0
    · rw [if_pos h] at hc
      have : c = '-' := by simpa using hc
      subst this
      decide
    · rw [if_neg h] at hc
      cases hc
  · rw [List.mem_append, List.mem_cons] at hc
    rcases hc with hc | rfl | hc
    · exact canonKey_digit (hW c hc)
    · decide
    · exact canonKey_digit (hFr c hc)

theorem pyStr_canonKey {v : PyVal} (h : v.canonical = true) :
    ∀ c ∈ v.pyStr.data, canonKey c = true := by
  cases v with
  | int n => exact intStr_canonKey n
  | float m e => exact decStr_canonKey m e
  | str s =>
    rw [PyVal.canonical, Bool.and_eq_true, Bool.and_eq_true] at h
    obtain ⟨-, hall⟩ := h
    rw [List.all_eq_true] at hall
    exact fun c hc => hall c hc

theorem pyRound5_canonical {v : PyVal} (h : v.canonical = true) :
    (pyRound5 v).canonical = true := by
  cases v with
  | int n => rfl
  | str s => exact h
  | float m e =>
    simp only [pyRound5]
    by_cases he : e ≤ 5
    · rw [if_pos he]; exact h
    · rw [if_neg he]; exact normDec_canonical _ _

theorem getCommand_data (c : Cmd) :
    (c.getCommand).data = c.verb.data ++
      ((c.parameters.map (fun p => ' ' :: p.1 ::
        (match p.2 with
         | PyVal.str _ => []
         | v => (pyRound5 v).pyStr.data))).flatten) := by
  suffices key : ∀ (ps : List (Char × PyVal)) (s : String),
      (ps.foldl (fun text p =>
        text ++ " " ++ String.mk [p.1] ++
          (match p.2 with
           | PyVal.str _ => ""
           | v => (pyRound5 v).pyStr)) s).data =
      s.data ++ ((ps.map (fun p => ' ' :: p.1 ::
        (match p.2 with
         | PyVal.str _ => []
         | v => (pyRound5 v).pyStr.data))).flatten) by
    exact key c.parameters c.verb
  intro ps
  induction ps with
  | nil => intro s; simp
  | cons p rest ih =>
    intro s
    rw [List.foldl_cons, ih, List.map_cons, List.flatten_cons]
    rw [String.data_append, String.data_append, String.data_append]
    have hm : (match p.2 with
        | PyVal.str _ => ("" : String)
        | v => (pyRound5 v).pyStr).data =
        (match p.2 with
         | PyVal.str _ => ([] : List Char)
         | v => (pyRound5 v).pyStr.data) := by
      cases p.2 <;> rfl
    rw [hm]
    simp [List.append_assoc]

theorem cmd_canonical_parts {c : Cmd} (h : c.canonical = true) :
    ((c.verb = "" → c.parameters = []) ∧ (∀ ch ∈ c.verb.data, canonKey ch = true)) ∧
      (∀ p ∈ c.parameters, canonKey p.1 = true ∧ p.2.canonical = true) ∧
      (c.parameters.map Prod.fst).Nodup := by
  unfold Cmd.canonical at h
  rw [Bool.and_eq_true] at h
  obtain ⟨h1, h2⟩ := h
  unfold canonParams at h2
  rw [Bool.and_eq_true] at h2
  obtain ⟨h21, h22⟩ := h2
  rw [List.all_eq_true] at h21
  refine ⟨⟨?_, ?_⟩, ?_, of_decide_eq_true h22⟩
  · intro hv
    rw [if_pos hv] at h1
    exact of_decide_eq_true h1
  · intro ch hch
    by_cases hv : c.verb = ""
    · rw [hv] at hch
      cases hch
    · rw [if_neg hv, List.all_eq_true] at h1
      exact h1 ch hch
  · intro p hp
    have := h21 p hp
    rw [Bool.and_eq_true] at this
    exact this

theorem claim_roundtrip_core {line : List Char} {c : Cmd}
    (htok : tokenizeE line = .ok c)
    (hnum : ∀ p ∈ c.parameters, p.2.isNum = true) :
    tokenizeE (c.getCommand).data =
      .ok { verb := c.verb, parameters := c.parameters.map (fun p => (p.1, pyRound5 p.2)),
            comment := "" } := by
  obtain ⟨⟨hvp, hvc⟩, hpc, hnd⟩ := cmd_canonical_parts (tokenizeE_canonical htok)
  by_cases hv : c.verb = ""
  · have hp0 : c.parameters = [] := hvp hv
    have hgc : c.getCommand = c.verb := by
      unfold Cmd.getCommand
      rw [hp0]
      rfl
    rw [hgc, hv, hp0]
    rfl
  · rw [getCommand_data]
    have hmapsplit : (c.parameters.map (fun p => ' ' :: p.1 ::
        (match p.2 with
         | PyVal.str _ => []
         | v => (pyRound5 v).pyStr.data))) =
        (c.parameters.map (fun p => p.1 ::
          (match p.2 with
           | PyVal.str _ => []
           | v => (pyRound5 v).pyStr.data))).map (fun t => ' ' :: t) := by
      rw [List.map_map]
      rfl
    rw [hmapsplit]
    have hvne : c.verb.data ≠ [] := by
      intro he
      apply hv
      have h0 : c.verb = String.mk c.verb.data := rfl
      rw [h0, he]
    have htoks : ∀ t ∈ c.parameters.map (fun p => p.1 ::
        (match p.2 with
         | PyVal.str _ => []
         | v => (pyRound5 v).pyStr.data)), t ≠ [] ∧ ∀ ch ∈ t, canonKey ch = true := by
      intro t ht
      rw [List.mem_map] at ht
      obtain ⟨p, hp, rfl⟩ := ht
      obtain ⟨hk, hvcan⟩ := hpc p hp
      refine ⟨by simp, ?_⟩
      intro ch hch
      rw [List.mem_cons] at hch
      rcases hch with rfl | hch
      · exact hk
      · rcases hp2 : p.2 with n | ⟨mm, ee⟩ | s
        · rw [hp2] at hch
          exact pyStr_canonKey (pyRound5_canonical (by rw [hp2] at hvcan; exact hvcan)) ch hch
        · rw [hp2] at hch
          exact pyStr_canonKey (pyRound5_canonical (by rw [hp2] at hvcan; exact hvcan)) ch hch
        · rw [hp2] at hch
          cases hch
    rw [tokenizeE_intercalated c.verb.data _ hvne hvc htoks]
    have hmm : (c.parameters.map (fun p => p.1 ::
        (match p.2 with
         | PyVal.str _ => []
         | v => (pyRound5 v).pyStr.data))).map (fun t => (t.headD ' ', getNum t.tail)) =
        c.parameters.map (fun p => (p.1, pyRound5 p.2)) := by
      rw [List.map_map]
      refine List.map_congr_left ?_
      intro p hp
      obtain ⟨hk, hvcan⟩ := hpc p hp
      have hpnum := hnum p hp
      simp only [Function.comp_apply, List.headD_cons, List.tail_cons]
      rcases hp2 : p.2 with n | ⟨mm, ee⟩ | s
      · rw [Prod.mk.injEq]
        refine ⟨rfl, ?_⟩
        rw [hp2] at hvcan
        have : (pyRound5 (PyVal.int n)).canonical = true := pyRound5_canonical hvcan
        exact getNum_pyStr this
      · rw [Prod.mk.injEq]
        refine ⟨rfl, ?_⟩
        rw [hp2] at hvcan
        have : (pyRound5 (PyVal.float mm ee)).canonical = true := pyRound5_canonical hvcan
        exact getNum_pyStr this
      · rw [hp2] at hpnum
        cases hpnum
    rw [hmm]
    have hnd2 : ((c.parameters.map (fun p => (p.1, pyRound5 p.2))).map Prod.fst).Nodup := by
      have heq : (c.parameters.map (fun p => (p.1, pyRound5 p.2))).map Prod.fst =
          c.parameters.map Prod.fst := by
        rw [List.map_map]
        rfl
      rw [heq]
      exact hnd
    rw [dictOf_self hnd2]

theorem normF_val : ∀ fuel (m : Int) (e : Nat), e ≤ fuel →
    (((normF fuel m e).1 : ℚ) / 10 ^ (normF fuel m e).2) = (m : ℚ) / 10 ^ e := by
  intro fuel
  induction fuel with
  | zero =>
    intro m e h
    have he : e = 0 := by omega
    subst he
    rfl
  | succ f ih =>
    intro m e h
    rw [normF]
    by_cases he : e = 0
    · rw [if_pos he, he]
    · rw [if_neg he]
      by_cases hm : m.emod 10 = 0
      · rw [if_pos hm]
        rw [ih (m.ediv 10) (e - 1) (by omega)]
        have hdecomp : m = 10 * m.ediv 10 := by
          have hm' : m % 10 = 0 := hm
          have h0 : m = 10 * (m / 10) := by omega
          exact h0
        have hepow : (10 : ℚ) ^ e = 10 ^ (e - 1) * 10 := by
          rw [← pow_succ]
          congr 1
          omega
        have hc : (m : ℚ) = 10 * ((m.ediv 10 : Int) : ℚ) := by exact_mod_cast hdecomp
        rw [hc, hepow, mul_comm ((10 : ℚ) ^ (e - 1)) 10]
        rw [mul_div_mul_left _ _ (by norm_num : (10 : ℚ) ≠ 0)]
      · rw [if_neg hm]

theorem toQ_normDec (m : Int) (e : Nat) : (normDec m e).toQ = (m : ℚ) / 10 ^ e := by
  unfold normDec PyVal.toQ
  exact normF_val e m e le_rfl

theorem normF_zero_m : ∀ fuel (e : Nat), e ≤ fuel → normF fuel 0 e = (0, 0) := by
  intro fuel
  induction fuel with
  | zero =>
    intro e h
    have he : e = 0 := Nat.le_zero.mp h
    subst he
    rfl
  | succ f ih =>
    intro e h
    rw [normF]
    by_cases he : e = 0
    · rw [if_pos he]
    · rw [if_neg he, if_pos (by decide : (0 : Int).emod 10 = 0)]
      rw [show (0 : Int).ediv 10 = 0 from rfl]
      exact ih (e - 1) (by omega)

theorem toQ_subDec (p q : Int × Nat) :
    (subDec p q).toQ = (p.1 : ℚ) / 10 ^ p.2 - (q.1 : ℚ) / 10 ^ q.2 := by
  unfold subDec
  rw [toQ_normDec]
  have hp : p.2 ≤ max p.2 q.2 := le_max_left _ _
  have hq : q.2 ≤ max p.2 q.2 := le_max_right _ _
  have h1 : (10 : ℚ) ^ max p.2 q.2 = 10 ^ p.2 * 10 ^ (max p.2 q.2 - p.2) := by
    rw [← pow_add]; congr 1; omega
  have h2 : (10 : ℚ) ^ max p.2 q.2 = 10 ^ q.2 * 10 ^ (max p.2 q.2 - q.2) := by
    rw [← pow_add]; congr 1; omega
  push_cast
  rw [sub_div]
  congr 1
  · rw [h1, mul_comm ((10:ℚ) ^ p.2) _, ← div_div]
    rw [mul_div_assoc, div_self (by positivity), mul_one]
  · rw [h2, mul_comm ((10:ℚ) ^ q.2) _, ← div_div]
    rw [mul_div_assoc, div_self (by positivity), mul_one]

theorem toQ_pySub {a b : PyVal} (ha : a.isNum = true) (hb : b.isNum = true) :
    (pySub a b).toQ = a.toQ - b.toQ := by
  cases a with
  | str s => cases ha
  | int x =>
    cases b with
    | str s => cases hb
    | int y =>
      unfold pySub PyVal.toQ
      push_cast
      ring
    | float mm ee =>
      show (subDec (toDecPair (PyVal.int x)) (toDecPair (PyVal.float mm ee))).toQ = _
      rw [toQ_subDec]
      unfold toDecPair PyVal.toQ
      norm_num
  | float m e =>
    cases b with
    | str s => cases hb
    | int y =>
      show (subDec (toDecPair (PyVal.float m e)) (toDecPair (PyVal.int y))).toQ = _
      rw [toQ_subDec]
      unfold toDecPair PyVal.toQ
      norm_num
    | float mm ee =>
      show (subDec (toDecPair (PyVal.float m e)) (toDecPair (PyVal.float mm ee))).toQ = _
      rw [toQ_subDec]
      unfold toDecPair PyVal.toQ
      norm_num

theorem pySub_isNum (a b : PyVal) : (pySub a b).isNum = true := by
  cases a <;> cases b <;> rfl

theorem pySub_canonical (a b : PyVal) : (pySub a b).canonical = true := by
  cases a with
  | int x =>
    cases b with
    | int y => rfl
    | float mm ee => exact normDec_canonical _ _
    | str s => exact normDec_canonical _ _
  | float m e => cases b <;> exact normDec_canonical _ _
  | str s => cases b <;> exact normDec_canonical _ _

theorem pySub_float_arg (a : PyVal) (m : Int) (e : Nat) :
    ∃ m' e', pySub a (PyVal.float m e) = PyVal.float m' e' := by
  cases a with
  | int x => exact ⟨_, _, rfl⟩
  | float mm ee => exact ⟨_, _, rfl⟩
  | str s => exact ⟨_, _, rfl⟩

theorem pySub_int_stays (x : Int) (y : Int) : pySub (PyVal.int x) (PyVal.int y) =
    PyVal.int (x - y) := rfl

theorem subDec_zero_right {m : Int} {e : Nat} (h : e = 0 ∨ ¬ m.emod 10 = 0) :
    subDec (m, e) (0, 0) = PyVal.float m e := by
  have h1 : max e 0 = e := by omega
  have h2 : (m * 10 ^ (max e 0 - e) - 0 * 10 ^ (max e 0 - 0)) = m := by
    rw [h1, Nat.sub_self, pow_zero, mul_one, zero_mul, sub_zero]
  show normDec (m * 10 ^ (max e 0 - e) - 0 * 10 ^ (max e 0 - 0)) (max e 0) = PyVal.float m e
  rw [h2, h1]
  unfold normDec
  rw [normF_self h]

theorem pySub_self_int (a : Int) : pySub (PyVal.int a) (PyVal.int a) = PyVal.int 0 := by
  rw [pySub_int_stays, sub_self]

theorem pySub_self_float (m : Int) (e : Nat) :
    pySub (PyVal.float m e) (PyVal.float m e) = PyVal.float 0 0 := by
  have h1 : max e e = e := by omega
  have h2 : (m * 10 ^ (max e e - e) - m * 10 ^ (max e e - e)) = 0 := by ring
  show normDec (m * 10 ^ (max e e - e) - m * 10 ^ (max e e - e)) (max e e) = PyVal.float 0 0
  rw [h2, h1]
  unfold normDec
  rw [normF_zero_m e e le_rfl]

theorem pySub_zero_int {v : PyVal} (hv : v.canonical = true) (hnum : v.isNum = true) :
    pySub v (PyVal.int 0) = v := by
  cases v with
  | str s => cases hnum
  | int a => rw [pySub_int_stays, sub_zero]
  | float m e =>
    show subDec (m, e) (0, 0) = PyVal.float m e
    exact subDec_zero_right (of_decide_eq_true hv)

theorem pySub_zero_float {m : Int} {e : Nat} (hv : (PyVal.float m e).canonical = true) :
    pySub (PyVal.float m e) (PyVal.float 0 0) = PyVal.float m e := by
  show subDec (m, e) (0, 0) = PyVal.float m e
  exact subDec_zero_right (of_decide_eq_true hv)

theorem pyMinFold_spec : ∀ (rest : List PyVal) (a : PyVal),
    ∃ pre post, a :: rest = pre ++ pyMinFold a rest :: post ∧
      (∀ x ∈ pre, (pyMinFold a rest).toQ < x.toQ) ∧
      (∀ x ∈ a :: rest, (pyMinFold a rest).toQ ≤ x.toQ) := by
  intro rest
  induction rest with
  | nil =>
    intro a
    exact ⟨[], [], rfl, by simp, by
      intro x hx
      rw [List.mem_singleton] at hx
      subst hx
      exact le_rfl⟩
  | cons b t ih =>
    intro a
    have hfold : pyMinFold a (b :: t) = pyMinFold (if b.toQ < a.toQ then b else a) t := rfl
    by_cases hlt : b.toQ < a.toQ
    · rw [hfold, if_pos hlt]
      obtain ⟨pre', post', heq, hpre, hall⟩ := ih b
      refine ⟨a :: pre', post', by rw [List.cons_append, ← heq], ?_, ?_⟩
      · intro x hx
        rw [List.mem_cons] at hx
        rcases hx with rfl | hx
        · calc (pyMinFold b t).toQ ≤ b.toQ := hall b (List.mem_cons_self b t)
            _ < x.toQ := hlt
        · exact hpre x hx
      · intro x hx
        rw [List.mem_cons] at hx
        rcases hx with rfl | hx
        · calc (pyMinFold b t).toQ ≤ b.toQ := hall b (List.mem_cons_self b t)
            _ ≤ x.toQ := le_of_lt hlt
        · exact hall x hx
    · rw [hfold, if_neg hlt]
      obtain ⟨pre', post', heq, hpre, hall⟩ := ih a
      cases pre' with
      | nil =>
        simp only [List.nil_append] at heq
        refine ⟨[], b :: t, ?_, by simp, ?_⟩
        · rw [List.nil_append]
          congr 1
          exact ((List.cons.injEq _ _ _ _).mp heq).1
        · intro x hx
          have hra : pyMinFold a t = a := ((List.cons.injEq _ _ _ _).mp heq).1.symm
          rw [hra]
          rw [List.mem_cons] at hx
          rcases hx with rfl | hx
          · exact le_rfl
          · rw [List.mem_cons] at hx
            rcases hx with rfl | hx
            · exact le_of_not_lt hlt
            · have := hall x (List.mem_cons_of_mem a hx)
              rw [hra] at this
              exact this
      | cons a0 pre'' =>
        rw [List.cons_append] at heq
        have ha0 : a0 = a := ((List.cons.injEq _ _ _ _).mp heq).1.symm
        have ht : t = pre'' ++ pyMinFold a t :: post' := ((List.cons.injEq _ _ _ _).mp heq).2
        have hlta : (pyMinFold a t).toQ < a.toQ := by
          apply hpre
          rw [ha0] at *
          exact List.mem_cons_self a pre''
        refine ⟨a :: b :: pre'', post', ?_, ?_, ?_⟩
        · rw [List.cons_append, List.cons_append, ← ht]
        · intro x hx
          rw [List.mem_cons] at hx
          rcases hx with rfl | hx
          · exact hlta
          · rw [List.mem_cons] at hx
            rcases hx with rfl | hx
            · exact lt_of_lt_of_le hlta (le_of_not_lt hlt)
            · exact hpre x (List.mem_cons_of_mem a0 hx)
        · intro x hx
          rw [List.mem_cons] at hx
          rcases hx with rfl | hx
          · exact hall x (List.mem_cons_self x t)
          · rw [List.mem_cons] at hx
            rcases hx with rfl | hx
            · exact le_trans (le_of_lt hlta) (le_of_not_lt hlt)
            · exact hall x (List.mem_cons_of_mem a hx)

theorem pyMin?_spec {l : List PyVal} {r : PyVal} (h : pyMin? l = some r) :
    ∃ pre post, l = pre ++ r :: post ∧ (∀ x ∈ pre, r.toQ < x.toQ) ∧
      (∀ x ∈ l, r.toQ ≤ x.toQ) := by
  cases l with
  | nil => cases h
  | cons a rest =>
    have hr : r = pyMinFold a rest := by
      have : pyMin? (a :: rest) = some (pyMinFold a rest) := rfl
      rw [this] at h
      exact (Option.some.injEq _ _).mp h.symm
    subst hr
    exact pyMinFold_spec rest a

theorem pyMinFold_keep {a : PyVal} : ∀ {rest : List PyVal},
    (∀ x ∈ rest, ¬ x.toQ < a.toQ) → pyMinFold a rest = a := by
  intro rest
  induction rest with
  | nil => intro _; rfl
  | cons b t ih =>
    intro h
    have hfold : pyMinFold a (b :: t) = pyMinFold (if b.toQ < a.toQ then b else a) t := rfl
    rw [hfold, if_neg (h b (List.mem_cons_self b t))]
    exact ih (fun x hx => h x (List.mem_cons_of_mem b hx))

theorem pyMinFold_cross {z : PyVal} : ∀ (pre : List PyVal) (a : PyVal) (post : List PyVal),
    (∀ x ∈ pre, z.toQ < x.toQ) → z.toQ < a.toQ → (∀ x ∈ post, z.toQ ≤ x.toQ) →
    pyMinFold a (pre ++ z :: post) = z := by
  intro pre
  induction pre with
  | nil =>
    intro a post _ hza hpost
    rw [List.nil_append]
    have hfold : pyMinFold a (z :: post) = pyMinFold (if z.toQ < a.toQ then z else a) post := rfl
    rw [hfold, if_pos hza]
    exact pyMinFold_keep (fun x hx hlt => absurd (hpost x hx) (not_le.mpr hlt))
  | cons b pre' ih =>
    intro a post hpre hza hpost
    rw [List.cons_append]
    have hfold : pyMinFold a (b :: (pre' ++ z :: post)) =
        pyMinFold (if b.toQ < a.toQ then b else a) (pre' ++ z :: post) := rfl
    rw [hfold]
    have hzb : z.toQ < b.toQ := hpre b (List.mem_cons_self b pre')
    by_cases hba : b.toQ < a.toQ
    · rw [if_pos hba]
      exact ih b post (fun x hx => hpre x (List.mem_cons_of_mem b hx)) hzb hpost
    · rw [if_neg hba]
      exact ih a post (fun x hx => hpre x (List.mem_cons_of_mem b hx)) hza hpost

theorem pyMin?_first_zero {pre post : List PyVal} {z : PyVal}
    (hpre : ∀ x ∈ pre, z.toQ < x.toQ) (hpost : ∀ x ∈ post, z.toQ ≤ x.toQ) :
    pyMin? (pre ++ z :: post) = some z := by
  cases pre with
  | nil =>
    rw [List.nil_append]
    show some (pyMinFold z post) = some z
    rw [pyMinFold_keep (fun x hx hlt => absurd (hpost x hx) (not_le.mpr hlt))]
  | cons a pre' =>
    rw [List.cons_append]
    show some (pyMinFold a (pre' ++ z :: post)) = some z
    rw [pyMinFold_cross pre' a post (fun x hx => hpre x (List.mem_cons_of_mem a hx))
      (hpre a (List.mem_cons_self a pre')) hpost]

theorem find?_map_replace {k : Char} {v : PyVal} :
    ∀ ps : List (Char × PyVal), ps.any (fun p => p.1 = k) = true →
    (ps.map (fun p => if p.1 = k then (k, v) else p)).find? (fun p => p.1 = k) = some (k, v) := by
  intro ps
  induction ps with
  | nil => intro h; cases h
  | cons p rest ih =>
    intro h
    rw [List.map_cons]
    by_cases hp : p.1 = k
    · rw [if_pos hp]
      rw [List.find?_cons_of_pos _ (by simp)]
    · rw [if_neg hp]
      rw [List.find?_cons_of_neg _ (by simpa using hp)]
      apply ih
      rw [List.any_cons] at h
      simpa [hp] using h

theorem find?_append_none {q : Char × PyVal → Bool} {l₂ : List (Char × PyVal)} :
    ∀ l₁, l₁.find? q = none → (l₁ ++ l₂).find? q = l₂.find? q := by
  intro l₁
  induction l₁ with
  | nil => intro _; rfl
  | cons p rest ih =>
    intro h
    rw [List.find?_cons] at h
    rcases hq : q p with _ | _
    · rw [List.cons_append, List.find?_cons_of_neg _ (by simp [hq])]
      rw [hq] at h
      exact ih h
    · rw [hq] at h
      cases h

theorem dictGet?_set_self (ps : List (Char × PyVal)) (k : Char) (v : PyVal) :
    dictGet? (dictSet ps k v) k = some v := by
  unfold dictSet
  by_cases h : ps.any (fun p => p.1 = k)
  · rw [if_pos h]
    unfold dictGet?
    rw [find?_map_replace ps h]
    rfl
  · rw [if_neg h]
    unfold dictGet?
    rw [find?_append_none ps (by
      rw [List.find?_eq_none]
      intro p hp hpk
      exact h (by rw [List.any_eq_true]; exact ⟨p, hp, hpk⟩))]
    rw [List.find?_cons_of_pos _ (by simp)]
    rfl

theorem find?_map_replace_ne {k k' : Char} {v : PyVal} (h : ¬ k' = k) :
    ∀ ps : List (Char × PyVal),
    (ps.map (fun p => if p.1 = k then (k, v) else p)).find? (fun p => p.1 = k') =
      ps.find? (fun p => p.1 = k') := by
  intro ps
  induction ps with
  | nil => rfl
  | cons p rest ih =>
    rw [List.map_cons]
    by_cases hp : p.1 = k
    · rw [if_pos hp]
      rw [List.find?_cons_of_neg _ (by
        simp only [decide_eq_true_eq]
        intro he
        exact h (by rw [← he]))]
      rw [List.find?_cons_of_neg _ (by
        simp only [decide_eq_true_eq]
        rw [hp]
        intro he
        exact h (by rw [← he]))]
      exact ih
    · rw [if_neg hp]
      rw [List.find?_cons, List.find?_cons]
      cases hq : (decide (p.1 = k') : Bool)
      · exact ih
      · rfl

theorem find?_append_single_ne {k k' : Char} {v : PyVal} (h : ¬ k' = k) :
    ∀ ps : List (Char × PyVal),
    (ps ++ [(k, v)]).find? (fun p => p.1 = k') = ps.find? (fun p => p.1 = k') := by
  intro ps
  induction ps with
  | nil =>
    rw [List.nil_append, List.find?_cons_of_neg _ (by
      simp only [decide_eq_true_eq]
      intro he
      exact h (by rw [← he]))]
  | cons p rest ih =>
    rw [List.cons_append, List.find?_cons, List.find?_cons]
    cases hq : (decide (p.1 = k') : Bool)
    · exact ih
    · rfl

theorem dictGet?_set_ne (ps : List (Char × PyVal)) (k k' : Char) (v : PyVal)
    (h : ¬ k' = k) : dictGet? (dictSet ps k v) k' = dictGet? ps k' := by
  unfold dictSet
  by_cases hany : ps.any (fun p => p.1 = k)
  · rw [if_pos hany]
    unfold dictGet?
    rw [find?_map_replace_ne h ps]
  · rw [if_neg hany]
    unfold dictGet?
    rw [find?_append_single_ne h ps]

theorem dictSet_uniform_self {ps : List (Char × PyVal)} {k : Char} {v : PyVal} :
    ∀ p ∈ dictSet ps k v, p.1 = k → p = (k, v) := by
  intro p hp hpk
  unfold dictSet at hp
  by_cases h : ps.any (fun q => q.1 = k)
  · rw [if_pos h, List.mem_map] at hp
    obtain ⟨q, hq, he⟩ := hp
    by_cases hqk : q.1 = k
    · rw [if_pos hqk] at he; exact he.symm
    · rw [if_neg hqk] at he; rw [← he] at hpk; exact absurd hpk hqk
  · rw [if_neg h, List.mem_append, List.mem_singleton] at hp
    rcases hp with hp | hp
    · exfalso
      apply h
      rw [List.any_eq_true]
      exact ⟨p, hp, by simpa using hpk⟩
    · exact hp

theorem dictSet_uniform_preserve {ps : List (Char × PyVal)} {k k' : Char} {v w : PyVal}
    (hne : ¬ k' = k) (hu : ∀ p ∈ ps, p.1 = k → p = (k, v)) :
    ∀ p ∈ dictSet ps k' w, p.1 = k → p = (k, v) := by
  intro p hp hpk
  unfold dictSet at hp
  by_cases h : ps.any (fun q => q.1 = k')
  · rw [if_pos h, List.mem_map] at hp
    obtain ⟨q, hq, he⟩ := hp
    by_cases hqk : q.1 = k'
    · rw [if_pos hqk] at he
      rw [← he] at hpk
      exact absurd hpk hne
    · rw [if_neg hqk] at he
      rw [← he] at hpk ⊢
      exact hu q hq hpk
  · rw [if_neg h, List.mem_append, List.mem_singleton] at hp
    rcases hp with hp | hp
    · exact hu p hp hpk
    · rw [hp] at hpk
      exact absurd hpk hne

theorem dictSet_uniform_id {ps : List (Char × PyVal)} {k : Char} {v : PyVal}
    (hany : ps.any (fun p => p.1 = k) = true)
    (hu : ∀ p ∈ ps, p.1 = k → p = (k, v)) : dictSet ps k v = ps := by
  unfold dictSet
  rw [if_pos hany]
  have : ∀ p ∈ ps, (if p.1 = k then (k, v) else p) = p := by
    intro p hp
    by_cases hpk : p.1 = k
    · rw [if_pos hpk]
      exact (hu p hp hpk).symm
    · rw [if_neg hpk]
  calc ps.map (fun p => if p.1 = k then (k, v) else p) = ps.map id := List.map_congr_left this
    _ = ps := List.map_id ps

theorem dictSet_any_self (ps : List (Char × PyVal)) (k : Char) (v : PyVal) :
    (dictSet ps k v).any (fun p => p.1 = k) = true := by
  have hfind := dictGet?_set_self ps k v
  unfold dictGet? at hfind
  rcases hf : (dictSet ps k v).find? (fun p => p.1 = k) with _ | p
  · rw [hf] at hfind; cases hfind
  · have h1 := List.find?_some hf
    rw [List.any_eq_true]
    exact ⟨p, List.mem_of_find?_eq_some hf, h1⟩

theorem shiftParam_get_self (k : Char) (m : PyVal) (c : Cmd) :
    dictGet? (shiftParam k m c).parameters k =
      (dictGet? c.parameters k).map (fun v => if v.isNum then pySub v m else v) := by
  unfold shiftParam
  rcases hg : dictGet? c.parameters k with _ | v
  · simp only [hg, Option.map_none']
  · simp only [hg, Option.map_some']
    by_cases hnum : v.isNum = true
    · rw [if_pos hnum, if_pos hnum]
      show dictGet? (dictSet c.parameters k (pySub v m)) k = _
      rw [dictGet?_set_self]
    · rw [if_neg hnum, if_neg hnum]
      exact hg

theorem shiftParam_get_ne (k k' : Char) (m : PyVal) (c : Cmd) (h : ¬ k' = k) :
    dictGet? (shiftParam k m c).parameters k' = dictGet? c.parameters k' := by
  unfold shiftParam
  rcases hg : dictGet? c.parameters k with _ | v
  · simp only [hg]
  · simp only [hg]
    by_cases hnum : v.isNum = true
    · rw [if_pos hnum]
      exact dictGet?_set_ne _ _ _ _ h
    · rw [if_neg hnum]

theorem shiftParam_verb (k : Char) (m : PyVal) (c : Cmd) :
    (shiftParam k m c).verb = c.verb := by
  unfold shiftParam
  rcases hg : dictGet? c.parameters k with _ | v
  · simp only [hg]
  · simp only [hg]
    by_cases hnum : v.isNum = true
    · rw [if_pos hnum]
    · rw [if_neg hnum]

theorem shiftParam_comment (k : Char) (m : PyVal) (c : Cmd) :
    (shiftParam k m c).comment = c.comment := by
  unfold shiftParam
  rcases hg : dictGet? c.parameters k with _ | v
  · simp only [hg]
  · simp only [hg]
    by_cases hnum : v.isNum = true
    · rw [if_pos hnum]
    · rw [if_neg hnum]

theorem axisArgs_map_shift (lines : List Cmd) (f : Cmd → Cmd) (k : Char) (m : PyVal)
    (hf : ∀ c, dictGet? (f c).parameters k =
      (dictGet? c.parameters k).map (fun v => if v.isNum then pySub v m else v)) :
    axisArgs (lines.map f) k =
      (axisArgs lines k).map (fun v => if v.isNum then pySub v m else v) := by
  induction lines with
  | nil => rfl
  | cons c rest ih =>
    unfold axisArgs at ih ⊢
    rw [List.map_cons, List.filterMap_cons, List.filterMap_cons]
    rw [hf c]
    rcases hg : dictGet? c.parameters k with _ | v
    · simp only [Option.map_none']
      exact ih
    · simp only [Option.map_some']
      rw [List.map_cons, ih]

theorem numList_map_sub (vs : List PyVal) (m : PyVal) :
    numList (vs.map (fun v => if v.isNum then pySub v m else v)) =
      (numList vs).map (fun v => pySub v m) := by
  induction vs with
  | nil => rfl
  | cons v rest ih =>
    unfold numList at ih ⊢
    rw [List.map_cons, List.filter_cons, List.filter_cons]
    by_cases hnum : v.isNum = true
    · rw [if_pos hnum]
      rw [if_pos (pySub_isNum v m), if_pos hnum]
      rw [List.map_cons, ih]
    · rw [if_neg hnum]
      rw [if_neg (fun hh => hnum hh), if_neg (fun hh => hnum hh)]
      exact ih

theorem dictGet?_some_any {ps : List (Char × PyVal)} {k : Char} {v : PyVal}
    (h : dictGet? ps k = some v) : ps.any (fun p => p.1 = k) = true := by
  unfold dictGet? at h
  rcases hf : ps.find? (fun p => p.1 = k) with _ | p
  · rw [hf] at h; cases h
  · have h1 := List.find?_some hf
    rw [List.any_eq_true]
    exact ⟨p, List.mem_of_find?_eq_some hf, h1⟩

theorem shiftParam_preserves_uniform {k k' : Char} {m v : PyVal} {c : Cmd}
    (hne : ¬ k' = k) (hu : ∀ p ∈ c.parameters, p.1 = k → p = (k, v)) :
    ∀ p ∈ (shiftParam k' m c).parameters, p.1 = k → p = (k, v) := by
  unfold shiftParam
  rcases hg : dictGet? c.parameters k' with _ | w
  · simp only [hg]; exact hu
  · simp only [hg]
    by_cases hnum : w.isNum = true
    · rw [if_pos hnum]
      exact dictSet_uniform_preserve hne hu
    · rw [if_neg hnum]
      exact hu

theorem pySub_twice_id {mk : PyVal} (hmk : mk.isNum = true) :
    ∀ v0 : PyVal, v0.isNum = true → pySub (pySub v0 mk) (pySub mk mk) = pySub v0 mk := by
  intro v0 _
  cases mk with
  | str s => cases hmk
  | int a =>
    rw [pySub_self_int]
    exact pySub_zero_int (pySub_canonical v0 (PyVal.int a)) (pySub_isNum v0 (PyVal.int a))
  | float m e =>
    rw [pySub_self_float]
    obtain ⟨m2, e2, hshape⟩ := pySub_float_arg v0 m e
    rw [hshape]
    refine pySub_zero_float ?_
    rw [← hshape]
    exact pySub_canonical v0 (PyVal.float m e)

theorem shiftParam_twice_id {k : Char} {mk z : PyVal} {c₁ : Cmd} (c0 : Cmd)
    (hget : dictGet? c₁.parameters k = (dictGet? c0.parameters k).map
      (fun v => if v.isNum then pySub v mk else v))
    (huni : ∀ v0, dictGet? c0.parameters k = some v0 → v0.isNum = true →
      ∀ p ∈ c₁.parameters, p.1 = k → p = (k, pySub v0 mk))
    (hz : ∀ v0, v0.isNum = true → pySub (pySub v0 mk) z = pySub v0 mk) :
    shiftParam k z c₁ = c₁ := by
  unfold shiftParam
  rcases hg1 : dictGet? c₁.parameters k with _ | v
  · rfl
  · simp only
    by_cases hnum : v.isNum = true
    · rw [if_pos hnum]
      have hg2 := hg1
      rw [hget] at hg2
      rcases hg0 : dictGet? c0.parameters k with _ | v0
      · rw [hg0] at hg2; cases hg2
      · rw [hg0, Option.map_some'] at hg2
        have hv : (if v0.isNum = true then pySub v0 mk else v0) = v :=
          (Option.some.injEq _ _).mp hg2
        by_cases h0 : v0.isNum = true
        · rw [if_pos h0] at hv
          have hset : dictSet c₁.parameters k (pySub v z) = c₁.parameters := by
            rw [← hv, hz v0 h0]
            apply dictSet_uniform_id
            · exact dictGet?_some_any hg1
            · exact huni v0 hg0 h0
          rw [hset]
        · rw [if_neg h0] at hv
          rw [← hv] at hnum
          exact absurd hnum h0
    · rw [if_neg hnum]

theorem min_after_shift {lines : List Cmd} {mk : PyVal} (k : Char) (f : Cmd → Cmd)
    (hf : ∀ c, dictGet? (f c).parameters k =
      (dictGet? c.parameters k).map (fun v => if v.isNum then pySub v mk else v))
    (hmin : pyMin? (numList (axisArgs lines k)) = some mk) :
    pyMin? (numList (axisArgs (lines.map f) k)) = some (pySub mk mk) := by
  rw [axisArgs_map_shift lines f k mk hf, numList_map_sub]
  obtain ⟨pre, post, heq, hpre, hall⟩ := pyMin?_spec hmin
  have hnum : ∀ x ∈ numList (axisArgs lines k), x.isNum = true := by
    intro x hx2
    unfold numList at hx2
    exact (List.mem_filter.mp hx2).2
  have hmknum : mk.isNum = true := by
    refine hnum mk ?_
    rw [heq]
    exact List.mem_append_right _ (List.mem_cons_self _ _)
  rw [heq, List.map_append, List.map_cons]
  apply pyMin?_first_zero
  · intro x hx2
    rw [List.mem_map] at hx2
    obtain ⟨y, hy2, rfl⟩ := hx2
    have hynum : y.isNum = true := by
      refine hnum y ?_
      rw [heq]
      exact List.mem_append_left _ hy2
    rw [toQ_pySub hmknum hmknum, toQ_pySub hynum hmknum]
    have := hpre y hy2
    linarith
  · intro x hx2
    rw [List.mem_map] at hx2
    obtain ⟨y, hy2, rfl⟩ := hx2
    have hynum : y.isNum = true := by
      refine hnum y ?_
      rw [heq]
      exact List.mem_append_right _ (List.mem_cons_of_mem _ hy2)
    rw [toQ_pySub hmknum hmknum, toQ_pySub hynum hmknum]
    have := hall y (by
      rw [heq]
      exact List.mem_append_right _ (List.mem_cons_of_mem _ hy2))
    linarith

theorem pyMin?_numList_isNum {vs : List PyVal} {mk : PyVal}
    (h : pyMin? (numList vs) = some mk) : mk.isNum = true := by
  obtain ⟨pre, post, heq, -, -⟩ := pyMin?_spec h
  have hmem : mk ∈ numList vs := by
    rw [heq]
    exact List.mem_append_right _ (List.mem_cons_self _ _)
  unfold numList at hmem
  exact (List.mem_filter.mp hmem).2

theorem orient_full {lines : List Cmd} {minx miny : PyVal}
    (hx : pyMin? (numList (axisArgs lines 'X')) = some minx)
    (hy : pyMin? (numList (axisArgs lines 'Y')) = some miny) :
    ∃ s₁, orientE lines = .ok s₁ ∧
      orientE s₁ = .ok s₁ ∧
      (∃ zx, pyMin? (numList (axisArgs s₁ 'X')) = some zx ∧ zx.toQ = 0) ∧
      (∃ zy, pyMin? (numList (axisArgs s₁ 'Y')) = some zy ∧ zy.toQ = 0) ∧
      (∀ i c0, lines.get? i = some c0 → ∃ c₁, s₁.get? i = some c₁ ∧
        c₁.verb = c0.verb ∧ c₁.comment = c0.comment ∧
        (∀ k v, dictGet? c0.parameters k = some v → v.isNum = false →
          dictGet? c₁.parameters k = some v)) := by
  have hmx : minx.isNum = true := pyMin?_numList_isNum hx
  have hmy : miny.isNum = true := pyMin?_numList_isNum hy
  set F : Cmd → Cmd := fun c => shiftParam 'Y' miny (shiftParam 'X' minx c) with hF
  have hfX : ∀ c, dictGet? (F c).parameters 'X' =
      (dictGet? c.parameters 'X').map (fun v => if v.isNum then pySub v minx else v) := by
    intro c
    rw [hF]
    rw [shiftParam_get_ne 'Y' 'X' miny _ (by decide)]
    exact shiftParam_get_self 'X' minx c
  have hfY : ∀ c, dictGet? (F c).parameters 'Y' =
      (dictGet? c.parameters 'Y').map (fun v => if v.isNum then pySub v miny else v) := by
    intro c
    rw [hF]
    rw [shiftParam_get_self 'Y' miny _]
    rw [shiftParam_get_ne 'X' 'Y' minx _ (by decide)]
  have hfirst : orientE lines = .ok (lines.map F) := by
    unfold orientE
    rw [hx, hy]
  have hx1 : pyMin? (numList (axisArgs (lines.map F) 'X')) = some (pySub minx minx) :=
    min_after_shift 'X' F hfX hx
  have hy1 : pyMin? (numList (axisArgs (lines.map F) 'Y')) = some (pySub miny miny) :=
    min_after_shift 'Y' F hfY hy
  have hGid : ∀ c₁ ∈ lines.map F,
      shiftParam 'Y' (pySub miny miny) (shiftParam 'X' (pySub minx minx) c₁) = c₁ := by
    intro c₁ hc₁
    rw [List.mem_map] at hc₁
    obtain ⟨c0, hc0, rfl⟩ := hc₁
    have hXid : shiftParam 'X' (pySub minx minx) (F c0) = F c0 := by
      refine shiftParam_twice_id c0 (hfX c0) ?_ (pySub_twice_id hmx)
      intro v0 hg0 h0
      have hinner : shiftParam 'X' minx c0 =
          { c0 with parameters := dictSet c0.parameters 'X' (pySub v0 minx) } := by
        unfold shiftParam
        simp only [hg0]
        rw [if_pos h0]
      have huni0 : ∀ p ∈ (shiftParam 'X' minx c0).parameters, p.1 = 'X' →
          p = ('X', pySub v0 minx) := by
        rw [hinner]
        exact dictSet_uniform_self
      rw [hF]
      exact shiftParam_preserves_uniform (by decide) huni0
    have hYid : shiftParam 'Y' (pySub miny miny) (F c0) = F c0 := by
      refine shiftParam_twice_id c0 (hfY c0) ?_ (pySub_twice_id hmy)
      intro w0 hg0 h0
      have hg0' : dictGet? (shiftParam 'X' minx c0).parameters 'Y' = some w0 := by
        rw [shiftParam_get_ne 'X' 'Y' minx _ (by decide)]
        exact hg0
      have houter : ∀ cX : Cmd, dictGet? cX.parameters 'Y' = some w0 →
          shiftParam 'Y' miny cX = { cX with
            parameters := dictSet cX.parameters 'Y' (pySub w0 miny) } := by
        intro cX hgX
        unfold shiftParam
        simp only [hgX]
        rw [if_pos h0]
      have hFc : F c0 = { (shiftParam 'X' minx c0) with
          parameters := dictSet (shiftParam 'X' minx c0).parameters 'Y' (pySub w0 miny) } := by
        rw [hF]
        exact houter _ hg0'
      rw [hFc]
      exact dictSet_uniform_self
    rw [hXid, hYid]
  have hsecond : orientE (lines.map F) = .ok (lines.map F) := by
    unfold orientE
    rw [hx1, hy1]
    show Except.ok ((lines.map F).map
      (fun c => shiftParam 'Y' (pySub miny miny) (shiftParam 'X' (pySub minx minx) c))) =
      Except.ok (lines.map F)
    congr 1
    calc (lines.map F).map
          (fun c => shiftParam 'Y' (pySub miny miny) (shiftParam 'X' (pySub minx minx) c)) =
        (lines.map F).map id := List.map_congr_left hGid
      _ = lines.map F := List.map_id _
  refine ⟨lines.map F, hfirst, hsecond, ⟨pySub minx minx, hx1, ?_⟩, ⟨pySub miny miny, hy1, ?_⟩, ?_⟩
  · rw [toQ_pySub hmx hmx, sub_self]
  · rw [toQ_pySub hmy hmy, sub_self]
  · intro i c0 hi
    refine ⟨F c0, ?_, ?_, ?_, ?_⟩
    · rw [List.get?_map, hi, Option.map_some']
    · rw [hF]
      show (shiftParam 'Y' miny (shiftParam 'X' minx c0)).verb = _
      rw [shiftParam_verb, shiftParam_verb]
    · rw [hF]
      show (shiftParam 'Y' miny (shiftParam 'X' minx c0)).comment = _
      rw [shiftParam_comment, shiftParam_comment]
    · intro k v hk hnm
      by_cases hkX : k = 'X'
      · subst hkX
        rw [hfX c0, hk, Option.map_some', if_neg (by rw [hnm]; exact Bool.false_ne_true)]
      · by_cases hkY : k = 'Y'
        · subst hkY
          rw [hfY c0, hk, Option.map_some', if_neg (by rw [hnm]; exact Bool.false_ne_true)]
        · rw [hF]
          show dictGet? (shiftParam 'Y' miny (shiftParam 'X' minx c0)).parameters k = _
          rw [shiftParam_get_ne _ _ _ _ hkY, shiftParam_get_ne _ _ _ _ hkX]
          exact hk

/-! ### Lemma layer: the type table is sorted and seeded, so `getType` is total -/

theorem find?_decomp {α : Type} {p : α → Bool} :
    ∀ {l : List α} {a : α}, l.find? p = some a →
    ∃ l₁ l₂, l = l₁ ++ a :: l₂ ∧ ∀ x ∈ l₁, p x = false := by
  intro l
  induction l with
  | nil => intro a h; cases h
  | cons b rest ih =>
    intro a h
    rw [List.find?_cons] at h
    cases hb : p b
    · rw [hb] at h
      obtain ⟨l₁, l₂, heq, hfalse⟩ := ih h
      refine ⟨b :: l₁, l₂, by rw [heq, List.cons_append], ?_⟩
      intro x hx
      rw [List.mem_cons] at hx
      rcases hx with rfl | hx
      · exact hb
      · exact hfalse x hx
    · rw [hb] at h
      simp only [Option.some.injEq] at h
      exact ⟨[], rest, by rw [h, List.nil_append], by simp⟩

theorem natDictSet_mem_zero {table : List (Nat × String)} {k : Nat} {v v0 : String}
    (h : (0, v0) ∈ table) : ∃ v', (0, v') ∈ natDictSet table k v := by
  unfold natDictSet
  by_cases hc : table.any (fun p => p.1 = k)
  · rw [if_pos hc]
    by_cases hk : k = 0
    · refine ⟨v, ?_⟩
      rw [List.mem_map]
      refine ⟨(0, v0), h, ?_⟩
      rw [if_pos hk.symm, hk]
    · refine ⟨v0, ?_⟩
      rw [List.mem_map]
      refine ⟨(0, v0), h, ?_⟩
      rw [if_neg ?_]
      intro he
      exact hk he.symm
  · rw [if_neg hc]
    exact ⟨v0, List.mem_append_left _ h⟩

theorem natDictSet_keys {table : List (Nat × String)} {k : Nat} {v : String} :
    (natDictSet table k v).map Prod.fst = table.map Prod.fst ∨
      ((natDictSet table k v).map Prod.fst = table.map Prod.fst ++ [k] ∧
        ¬ k ∈ table.map Prod.fst) := by
  unfold natDictSet
  by_cases hc : table.any (fun p => p.1 = k)
  · rw [if_pos hc]
    left
    rw [List.map_map]
    refine List.map_congr_left ?_
    intro p _
    by_cases hpk : p.1 = k
    · simp only [Function.comp_apply, if_pos hpk]
      exact hpk.symm
    · simp only [Function.comp_apply, if_neg hpk]
  · rw [if_neg hc]
    right
    refine ⟨by rw [List.map_append]; rfl, ?_⟩
    intro hk
    rw [List.mem_map] at hk
    obtain ⟨p, hp, he⟩ := hk
    rw [List.any_eq_true] at hc
    exact hc ⟨p, hp, by simp [he]⟩

theorem typeStep_inv : ∀ (ps : List (Nat × Cmd)) (table : List (Nat × String)),
    (ps.map Prod.fst).Pairwise (· < ·) →
    (table.map Prod.fst).Pairwise (· < ·) →
    (∀ k ∈ table.map Prod.fst, ∀ q ∈ ps, k ≤ q.1) →
    (∃ v0, (0, v0) ∈ table) →
    ((ps.foldl (fun t q => if containsSub q.2.comment "TYPE:"
        then natDictSet t q.1 (removePre "TYPE:" q.2.comment) else t) table).map
          Prod.fst).Pairwise (· < ·) ∧
      (∃ v0, (0, v0) ∈ ps.foldl (fun t q => if containsSub q.2.comment "TYPE:"
        then natDictSet t q.1 (removePre "TYPE:" q.2.comment) else t) table) := by
  intro ps
  induction ps with
  | nil =>
    intro table _ ht _ hz
    exact ⟨ht, hz⟩
  | cons q rest ih =>
    intro table hps ht hle hz
    rw [List.map_cons, List.pairwise_cons] at hps
    obtain ⟨hqrest, hrest⟩ := hps
    rw [List.foldl_cons]
    by_cases hc : containsSub q.2.comment "TYPE:"
    · rw [if_pos hc]
      obtain ⟨v0, hv0⟩ := hz
      rcases @natDictSet_keys table q.1 (removePre "TYPE:" q.2.comment)
          with hsame | ⟨happ, hnotin⟩
      · refine ih _ hrest (by rw [hsame]; exact ht) ?_ (natDictSet_mem_zero hv0)
        intro k hk q' hq'
        rw [hsame] at hk
        exact hle k hk q' (List.mem_cons_of_mem q hq')
      · refine ih _ hrest ?_ ?_ (natDictSet_mem_zero hv0)
        · rw [happ, List.pairwise_append]
          refine ⟨ht, List.pairwise_singleton _ _, ?_⟩
          intro a ha b hb
          rw [List.mem_singleton] at hb
          subst hb
          have h1 : a ≤ q.1 := hle a ha q (List.mem_cons_self q rest)
          have h2 : a ≠ q.1 := by
            intro he
            exact hnotin (he ▸ ha)
          omega
        · intro k hk q' hq'
          rw [happ, List.mem_append] at hk
          rcases hk with hk | hk
          · exact hle k hk q' (List.mem_cons_of_mem q hq')
          · rw [List.mem_singleton] at hk
            subst hk
            have : q.1 < q'.1 := hqrest q'.1 (List.mem_map_of_mem Prod.fst hq')
            omega
    · rw [if_neg hc]
      refine ih _ hrest ht ?_ hz
      intro k hk q' hq'
      exact hle k hk q' (List.mem_cons_of_mem q hq')

theorem computeTypeChanges_inv (lines : List Cmd) :
    ((computeTypeChanges lines).map Prod.fst).Pairwise (· < ·) ∧
      ∃ v0, (0, v0) ∈ computeTypeChanges lines := by
  unfold computeTypeChanges
  refine typeStep_inv lines.enum [(0, "None")] ?_ ?_ ?_ ⟨"None", by simp⟩
  · rw [List.enum_map_fst]
    exact List.pairwise_lt_range _
  · simp
  · intro k hk q _
    simp only [List.map_cons, List.map_nil, List.mem_singleton] at hk
    subst hk
    exact Nat.zero_le _

theorem getTypeE_spec {table : List (Nat × String)}
    (hs : (table.map Prod.fst).Pairwise (· < ·))
    (hz : ∃ v0, (0, v0) ∈ table) (q : Nat) :
    ∃ k v, getTypeE table q = .ok v ∧ (k, v) ∈ table ∧ k ≤ q ∧
      ∀ p ∈ table, p.1 ≤ q → p.1 ≤ k := by
  obtain ⟨v0, hv0⟩ := hz
  have hfind : (table.reverse.find? (fun p => p.1 ≤ q)).isSome := by
    rw [List.find?_isSome]
    exact ⟨(0, v0), List.mem_reverse.mpr hv0, by simp⟩
  obtain ⟨kv, hfd⟩ := Option.isSome_iff_exists.mp hfind
  obtain ⟨k, v⟩ := kv
  refine ⟨k, v, ?_, ?_, ?_, ?_⟩
  · unfold getTypeE
    rw [hfd]
  · exact List.mem_reverse.mp (List.mem_of_find?_eq_some hfd)
  · have := List.find?_some hfd
    exact of_decide_eq_true this
  · obtain ⟨l₁, l₂, hdec, hfalse⟩ := find?_decomp hfd
    intro p hp hpq
    have hp' : p ∈ l₁ ++ (k, v) :: l₂ := by
      rw [← hdec]
      exact List.mem_reverse.mpr hp
    rw [List.mem_append, List.mem_cons] at hp'
    rcases hp' with hp1 | hp2 | hp3
    · exfalso
      have := hfalse p hp1
      rw [decide_eq_false_iff_not] at this
      exact this hpq
    · rw [hp2]
    · have hrev : ((table.map Prod.fst).reverse).Pairwise (fun a b => a > b) := by
        rw [List.pairwise_reverse]
        exact hs
      have hmapeq : (table.map Prod.fst).reverse =
          l₁.map Prod.fst ++ k :: l₂.map Prod.fst := by
        rw [← List.map_reverse, hdec, List.map_append, List.map_cons]
      rw [hmapeq, List.pairwise_append] at hrev
      obtain ⟨-, hr2, -⟩ := hrev
      rw [List.pairwise_cons] at hr2
      have : k > p.1 := hr2.1 p.1 (List.mem_map_of_mem Prod.fst hp3)
      omega

/-! ### Lemma layer: descending pops realize an index filter -/

theorem foldr_erase_nil (n : Nat) :
    ∀ idxs : List Nat, idxs.foldr (fun i (l : List Cmd) => l.eraseIdx (i - n)) [] = [] := by
  intro idxs
  induction idxs with
  | nil => rfl
  | cons j r ih => rw [List.foldr_cons, ih]; rfl

theorem foldr_erase_cons (n : Nat) (c : Cmd) (rest : List Cmd) :
    ∀ idxs : List Nat, (∀ i ∈ idxs, n + 1 ≤ i) →
    idxs.foldr (fun i (l : List Cmd) => l.eraseIdx (i - n)) (c :: rest) =
      c :: idxs.foldr (fun i (l : List Cmd) => l.eraseIdx (i - (n + 1))) rest := by
  intro idxs
  induction idxs with
  | nil => intro _; rfl
  | cons j r ih =>
    intro hge
    have hj : n + 1 ≤ j := hge j (List.mem_cons_self j r)
    rw [List.foldr_cons, ih (fun i hi => hge i (List.mem_cons_of_mem j hi)),
      List.foldr_cons]
    have hsub : j - n = (j - (n + 1)) + 1 := by omega
    rw [hsub, List.eraseIdx_cons_succ]

theorem eraseFoldr_gen :
    ∀ (lines : List Cmd) (idxs : List Nat) (n : Nat),
    idxs.Pairwise (· < ·) → (∀ i ∈ idxs, n ≤ i) →
    idxs.foldr (fun i (l : List Cmd) => l.eraseIdx (i - n)) lines =
      ((lines.enumFrom n).filter (fun p => decide (¬ p.1 ∈ idxs))).map Prod.snd := by
  intro lines
  induction lines with
  | nil =>
    intro idxs n _ _
    rw [foldr_erase_nil]
    rfl
  | cons c rest ih =>
    intro idxs n hp hge
    by_cases hn : n ∈ idxs
    · obtain ⟨r, rfl⟩ : ∃ r, idxs = n :: r := by
        cases idxs with
        | nil => cases hn
        | cons j r =>
          rcases List.mem_cons.mp hn with he | hm
          · exact ⟨r, by rw [he]⟩
          · exfalso
            rw [List.pairwise_cons] at hp
            have h1 : j < n := hp.1 n hm
            have h2 : n ≤ j := hge j (List.mem_cons_self j r)
            omega
      rw [List.pairwise_cons] at hp
      have hr1 : ∀ i ∈ r, n + 1 ≤ i := fun i hi => hp.1 i hi
      rw [List.foldr_cons, foldr_erase_cons n c rest r hr1, Nat.sub_self,
        List.eraseIdx_cons_zero, ih r (n + 1) hp.2 hr1]
      show _ = (((n, c) :: rest.enumFrom (n + 1)).filter
        (fun p => decide (¬ p.1 ∈ n :: r))).map Prod.snd
      rw [List.filter_cons]
      have hfalse : (decide (¬ (n, c).1 ∈ n :: r)) = false := by
        simp [List.mem_cons]
      rw [hfalse]
      simp only [Bool.false_eq_true, if_false]
      refine congrArg _ (List.filter_congr ?_)
      intro p hpm
      obtain ⟨pi, pc⟩ := p
      have hge2 : n + 1 ≤ pi := (List.mem_enumFrom hpm).1
      have : (pi ∈ n :: r) ↔ (pi ∈ r) := by
        rw [List.mem_cons]
        constructor
        · rintro (he | hm)
          · omega
          · exact hm
        · exact Or.inr
      simp only [this]
    · have hge1 : ∀ i ∈ idxs, n + 1 ≤ i := by
        intro i hi
        have h1 : n ≤ i := hge i hi
        have h2 : i ≠ n := fun he => hn (he ▸ hi)
        omega
      rw [foldr_erase_cons n c rest idxs hge1, ih idxs (n + 1) hp hge1]
      show _ = (((n, c) :: rest.enumFrom (n + 1)).filter
        (fun p => decide (¬ p.1 ∈ idxs))).map Prod.snd
      rw [List.filter_cons]
      have htrue : (decide (¬ (n, c).1 ∈ idxs)) = true := by
        simpa using hn
      rw [htrue]
      simp only [if_true, List.map_cons]

theorem popDesc_eq_filter {lines : List Cmd} {marks : List Nat}
    (hp : marks.Pairwise (· < ·)) :
    popDesc lines marks =
      ((lines.enum.filter (fun p => decide (¬ p.1 ∈ marks))).map Prod.snd) := by
  unfold popDesc
  rw [List.foldl_reverse]
  have h := eraseFoldr_gen lines marks 0 hp (fun i _ => Nat.zero_le i)
  simp only [Nat.sub_zero] at h
  exact h

/-! ### Lemma layer: the marking loop computes an index filter -/

theorem infillMarks_filter {lines : List Cmd} {layerIdx : List Nat}
    {tt : List (Nat × String)} {f : Nat} (hf : f ≠ 0) :
    ∀ idxs : List Nat,
    (∀ i ∈ idxs, ∃ tv, getTypeE tt i = .ok tv ∧
      (containsSub (strLower tv) "fill" = true → (getLayer? layerIdx i).isSome)) →
    infillMarks lines layerIdx tt f idxs =
      .ok (idxs.filter (fun i => match lines.get? i with
        | some c => infillDoomed layerIdx tt f i c
        | none => false)) := by
  intro idxs
  induction idxs with
  | nil => intro _; rfl
  | cons i rest ih =>
    intro h
    obtain ⟨tv, htv, hlaydef⟩ := h i (List.mem_cons_self i rest)
    have hrec := ih (fun j hj => h j (List.mem_cons_of_mem i hj))
    rw [List.filter_cons]
    show (getTypeE tt i >>= fun tv =>
      if containsSub (strLower tv) "fill" then
        match getLayer? layerIdx i with
        | none => throw (.typeError "unsupported operand type(s) for %: NoneType and int")
        | some L =>
          if f = 0 then throw .zeroDivisionError
          else if L % f ≠ 0 then
            match lines.get? i with
            | some c =>
              if c.verb ≠ "G0" then do
                let keep ← infillMarks lines layerIdx tt f rest
                pure (i :: keep)
              else infillMarks lines layerIdx tt f rest
            | none => infillMarks lines layerIdx tt f rest
          else infillMarks lines layerIdx tt f rest
      else infillMarks lines layerIdx tt f rest) = _
    rw [htv]
    show (if containsSub (strLower tv) "fill" then _ else _) = _
    by_cases hfill : containsSub (strLower tv) "fill"
    · rw [if_pos hfill]
      obtain ⟨L, hL⟩ := Option.isSome_iff_exists.mp (hlaydef hfill)
      rw [hL]
      show (if f = 0 then _ else _) = _
      rw [if_neg hf]
      by_cases hmod : L % f = 0
      · rw [if_neg (by simpa using hmod)]
        have hpred : (match lines.get? i with
            | some c => infillDoomed layerIdx tt f i c
            | none => false) = false := by
          cases hg : lines.get? i with
          | none => rfl
          | some c => simp [infillDoomed, htv, hL, hmod]
        rw [hrec, hpred]
        simp only [Bool.false_eq_true, if_false]
      · rw [if_pos (by simpa using hmod)]
        cases hg : lines.get? i with
        | none =>
          rw [hrec]
          simp only [Bool.false_eq_true, if_false]
        | some c =>
          by_cases hv : c.verb = "G0"
          · have hpred : infillDoomed layerIdx tt f i c = false := by
              simp [infillDoomed, hv]
            simp only [hrec, hpred]
            simp [hv]
          · have hpred : infillDoomed layerIdx tt f i c = true := by
              simp [infillDoomed, htv, hL, hfill, hmod, hv]
            simp only [hrec, hpred]
            simp [hv]
    · rw [if_neg hfill]
      have hpred : (match lines.get? i with
          | some c => infillDoomed layerIdx tt f i c
          | none => false) = false := by
        cases hg : lines.get? i with
        | none => rfl
        | some c => simp [infillDoomed, htv, hfill]
      rw [hrec, hpred]
      simp only [Bool.false_eq_true, if_false]

/-! ### Lemma layer: removeInfill as a whole computes the doomed-command filter -/

theorem removeInfillE_filter {lines : List Cmd} {f : Nat} {li : List Nat}
    (hf : f ≠ 0)
    (hli : computeLayerIndicesE lines = .ok li)
    (hlay : ∀ i, i < lines.length → ∀ tv,
      getTypeE (computeTypeChanges lines) i = .ok tv →
      containsSub (strLower tv) "fill" = true → (getLayer? li i).isSome) :
    removeInfillE lines f = .ok ((lines.enum.filter (fun p =>
      ¬ infillDoomed li (computeTypeChanges lines) f p.1 p.2)).map Prod.snd) := by
  have hinv := computeTypeChanges_inv lines
  have hmarks := @infillMarks_filter lines li (computeTypeChanges lines) f hf
    (List.range lines.length) ?side
  case side =>
    intro i hi
    obtain ⟨k, v, hok, -, -, -⟩ := getTypeE_spec hinv.1 hinv.2 i
    exact ⟨v, hok, fun hfill => hlay i (List.mem_range.mp hi) v hok hfill⟩
  show (computeLayerIndicesE lines >>= fun layerIdx =>
    infillMarks lines layerIdx (computeTypeChanges lines) f
        (List.range lines.length) >>= fun marks =>
      pure (popDesc lines marks)) = _
  rw [hli]
  show (infillMarks lines li (computeTypeChanges lines) f
      (List.range lines.length) >>= fun marks => pure (popDesc lines marks)) = _
  rw [hmarks]
  show Except.ok (popDesc lines ((List.range lines.length).filter
    (fun i => match lines.get? i with
      | some c => infillDoomed li (computeTypeChanges lines) f i c
      | none => false))) = _
  have hpw : ((List.range lines.length).filter
      (fun i => match lines.get? i with
        | some c => infillDoomed li (computeTypeChanges lines) f i c
        | none => false)).Pairwise (· < ·) :=
    (List.pairwise_lt_range _).filter _
  rw [popDesc_eq_filter hpw]
  refine congrArg Except.ok (congrArg _ (List.filter_congr ?_))
  intro p hp
  obtain ⟨pi, pc⟩ := p
  have hg : lines.get? pi = some pc := List.mem_enum_iff_get?.mp hp
  have hlt : pi < lines.length := List.fst_lt_of_mem_enum hp
  have hmem : (pi ∈ (List.range lines.length).filter
      (fun i => match lines.get? i with
        | some c => infillDoomed li (computeTypeChanges lines) f i c
        | none => false)) ↔
      infillDoomed li (computeTypeChanges lines) f pi pc = true := by
    rw [List.mem_filter, List.mem_range]
    constructor
    · intro h2
      have := h2.2
      rw [hg] at this
      exact this
    · intro h2
      exact ⟨hlt, by rw [hg]; exact h2⟩
  rw [decide_eq_decide]
  rw [hmem]

/-! ### Lemma layer: expansion building blocks -/

theorem get?_append_len (pre rest : List Cmd) (c : Cmd) :
    (pre ++ c :: rest).get? pre.length = some c := by
  induction pre with
  | nil => rfl
  | cons p t ih => simpa using ih

theorem insertIdx_append_len (pre rest : List Cmd) (x : Cmd) :
    (pre ++ rest).insertIdx pre.length x = pre ++ x :: rest := by
  induction pre with
  | nil => rfl
  | cons p t ih => simpa [List.insertIdx_succ_cons] using ih

theorem set_append_len (pre rest : List Cmd) (c y : Cmd) :
    (pre ++ c :: rest).set pre.length y = pre ++ y :: rest := by
  induction pre with
  | nil => rfl
  | cons p t ih => simpa using ih

theorem countG0_cons (c : Cmd) (l : List Cmd) :
    countG0 (c :: l) = (if c.verb = "G0" then 1 else 0) + countG0 l := by
  unfold countG0
  rw [List.filter_cons]
  by_cases hv : c.verb = "G0"
  · rw [if_pos (by simpa using hv), if_pos hv, List.length_cons]
    omega
  · rw [if_neg (by simpa using hv), if_neg hv]
    omega

theorem dictGet?_canonical {ps : List (Char × PyVal)} {k : Char} {v : PyVal}
    (h : dictGet? ps k = some v) (hc : ∀ p ∈ ps, canonKey p.1 = true ∧ p.2.canonical = true) :
    v.canonical = true := by
  unfold dictGet? at h
  rw [Option.map_eq_some'] at h
  obtain ⟨p, hp, rfl⟩ := h
  exact (hc p (List.mem_of_find?_eq_some hp)).2

theorem pair_cmd_canonical {k1 k2 : Char} {v w : PyVal}
    (hk1 : canonKey k1 = true) (hk2 : canonKey k2 = true) (hne : ¬ k1 = k2)
    (hv : v.canonical = true) (hw : w.canonical = true) :
    (Cmd.mk "G1" [(k1, v), (k2, w)] "").canonical = true := by
  simp [Cmd.canonical, canonParams, hk1, hk2, hv, hw, hne]
  exact ⟨by decide, by decide⟩

theorem altUpd_canonical {c : Cmd} {alt : PyVal} (hc : c.canonical = true)
    (ha : alt.canonical = true) : (altUpd c alt).canonical = true := by
  unfold altUpd
  cases h : dictGet? c.parameters 'Z' with
  | none => exact ha
  | some z => exact dictGet?_canonical h (cmd_canonical_parts hc).2.1

theorem tokenizeE_fstring {s1 s2 : String} (k1 k2 : Char) (v w : PyVal)
    (h1 : s1.data = ['G', '1', ' ', k1]) (h2 : s2.data = [' ', k2])
    (hk1 : canonKey k1 = true) (hk2 : canonKey k2 = true) (hne : ¬ k1 = k2)
    (hv : v.canonical = true) (hw : w.canonical = true) :
    tokenizeE (s1 ++ v.pyStr ++ s2 ++ w.pyStr).data =
      .ok ⟨"G1", [(k1, v), (k2, w)], ""⟩ := by
  have h := tokenizeE_intercalated ['G', '1'] [k1 :: v.pyStr.data, k2 :: w.pyStr.data]
    (by decide) (by decide) ?ht
  case ht =>
    intro t htm
    rw [List.mem_cons, List.mem_cons] at htm
    rcases htm with rfl | rfl | htm
    · refine ⟨List.cons_ne_nil _ _, ?_⟩
      intro ch hch
      rw [List.mem_cons] at hch
      rcases hch with rfl | hch
      · exact hk1
      · exact pyStr_canonKey hv ch hch
    · refine ⟨List.cons_ne_nil _ _, ?_⟩
      intro ch hch
      rw [List.mem_cons] at hch
      rcases hch with rfl | hch
      · exact hk2
      · exact pyStr_canonKey hw ch hch
    · cases htm
  have hdata : (s1 ++ v.pyStr ++ s2 ++ w.pyStr).data =
      ['G', '1'] ++ ([k1 :: v.pyStr.data, k2 :: w.pyStr.data].map
        (fun t => ' ' :: t)).flatten := by
    simp [h1, h2]
  rw [hdata, h]
  have hmap : [k1 :: v.pyStr.data, k2 :: w.pyStr.data].map
      (fun t => (t.headD ' ', getNum t.tail)) =
        [(k1, v), (k2, w)] := by
    simp only [List.map_cons, List.map_nil, List.headD_cons, List.tail_cons]
    rw [getNum_pyStr hv, getNum_pyStr hw]
  rw [hmap, dictOf_self (by simp [hne])]

/-! ### Lemma layer: the expansion loop realizes the safe lift/lateral/plunge shape -/

theorem exbind_ok {α β : Type} (a : α) (f : α → Except PyErr β) :
    ((Except.ok a : Except PyErr α) >>= f) = f a := rfl

theorem exbind_error {α β : Type} (e : PyErr) (f : α → Except PyErr β) :
    ((Except.error e : Except PyErr α) >>= f) = Except.error e := rfl

theorem exthrow_bind {α β : Type} (e : PyErr) (f : α → Except PyErr β) :
    ((throw e : Except PyErr α) >>= f) = Except.error e := rfl

theorem expure_bind {α β : Type} (a : α) (f : α → Except PyErr β) :
    ((pure a : Except PyErr α) >>= f) = f a := rfl

theorem expand_step (cl tv fs : PyVal)
    (hcl : cl.canonical = true) (htv : tv.canonical = true) (hfs : fs.canonical = true)
    (f : Nat)
    (ih : ∀ (todo pre : List Cmd) (alt : PyVal) (res : List Cmd),
      canonScript todo = true → alt.canonical = true →
      todo.length + 2 * countG0 todo + 1 ≤ f →
      expandLoopF cl tv fs f (pre ++ todo) pre.length alt = .ok res →
      ∃ out, res = pre ++ out ∧ SafeExpansion cl tv fs alt todo out)
    (c : Cmd) (t2 pre : List Cmd) (alt : PyVal) (res : List Cmd)
    (hc : c.canonical = true) (ht2 : canonScript t2 = true) (halt : alt.canonical = true)
    (hb : (c :: t2).length + 2 * countG0 (c :: t2) + 1 ≤ f + 1)
    (hrun : (if c.verb = "G0" then do
        let _oldCommand ← getRelE (pre ++ c :: t2) (pre.length : Int) (-1)
        let x ← match dictGet? c.parameters 'X' with
          | some v => pure v
          | none => throw (.keyError 'X')
        let y ← match dictGet? c.parameters 'Y' with
          | some v => pure v
          | none => throw (.keyError 'Y')
        let lift ← tokenizeE ("G1 Z" ++ cl.pyStr ++ " F" ++ tv.pyStr).data
        let lat ← tokenizeE ("G1 X" ++ x.pyStr ++ " Y" ++ y.pyStr).data
        let plunge ← tokenizeE ("G1 Z" ++ (altUpd c alt).pyStr ++ " F" ++ fs.pyStr).data
        let lines' := (((pre ++ c :: t2).insertIdx pre.length lift).insertIdx
          (pre.length + 1) lat).set (pre.length + 2) plunge
        expandLoopF cl tv fs f lines' (pre.length + 1) (altUpd c alt)
      else expandLoopF cl tv fs f (pre ++ c :: t2) (pre.length + 1) (altUpd c alt)) =
        .ok res) :
    ∃ out, res = pre ++ out ∧ SafeExpansion cl tv fs alt (c :: t2) out := by
  have hauc : (altUpd c alt).canonical = true := altUpd_canonical hc halt
  by_cases hv : c.verb = "G0"
  · rw [if_pos hv] at hrun
    cases hrel : getRelE (pre ++ c :: t2) (pre.length : Int) (-1) with
    | error e =>
      rw [hrel, exbind_error] at hrun
      cases hrun
    | ok old =>
      simp only [hrel, exbind_ok] at hrun
      cases hx : dictGet? c.parameters 'X' with
      | none =>
        simp only [hx, exthrow_bind] at hrun
        cases hrun
      | some x =>
        simp only [hx, expure_bind] at hrun
        cases hy : dictGet? c.parameters 'Y' with
        | none =>
          simp only [hy, exthrow_bind] at hrun
          cases hrun
        | some y =>
          simp only [hy, expure_bind] at hrun
          have hxc : x.canonical = true := dictGet?_canonical hx (cmd_canonical_parts hc).2.1
          have hyc : y.canonical = true := dictGet?_canonical hy (cmd_canonical_parts hc).2.1
          have hlift := @tokenizeE_fstring "G1 Z" " F" 'Z' 'F' cl tv rfl rfl
            (by decide) (by decide) (by decide) hcl htv
          have hlat := @tokenizeE_fstring "G1 X" " Y" 'X' 'Y' x y rfl rfl
            (by decide) (by decide) (by decide) hxc hyc
          have hplunge := @tokenizeE_fstring "G1 Z" " F" 'Z' 'F' (altUpd c alt) fs rfl rfl
            (by decide) (by decide) (by decide) hauc hfs
          simp only [hlift, exbind_ok, hlat, hplunge] at hrun
          have hlines : (((pre ++ c :: t2).insertIdx pre.length
                (Cmd.mk "G1" [('Z', cl), ('F', tv)] "")).insertIdx (pre.length + 1)
                (Cmd.mk "G1" [('X', x), ('Y', y)] "")).set (pre.length + 2)
                (Cmd.mk "G1" [('Z', altUpd c alt), ('F', fs)] "") =
              (pre ++ [Cmd.mk "G1" [('Z', cl), ('F', tv)] ""]) ++
                Cmd.mk "G1" [('X', x), ('Y', y)] "" ::
                  Cmd.mk "G1" [('Z', altUpd c alt), ('F', fs)] "" :: t2 := by
            rw [insertIdx_append_len pre (c :: t2)]
            have h2 : pre ++ Cmd.mk "G1" [('Z', cl), ('F', tv)] "" :: c :: t2 =
                (pre ++ [Cmd.mk "G1" [('Z', cl), ('F', tv)] ""]) ++ c :: t2 := by simp
            have hlen : pre.length + 1 =
                (pre ++ [Cmd.mk "G1" [('Z', cl), ('F', tv)] ""]).length := by simp
            rw [h2, hlen, insertIdx_append_len]
            have h3 : (pre ++ [Cmd.mk "G1" [('Z', cl), ('F', tv)] ""]) ++
                Cmd.mk "G1" [('X', x), ('Y', y)] "" :: c :: t2 =
                (pre ++ [Cmd.mk "G1" [('Z', cl), ('F', tv)] "",
                  Cmd.mk "G1" [('X', x), ('Y', y)] ""]) ++ c :: t2 := by simp
            have hlen2 : pre.length + 2 =
                (pre ++ [Cmd.mk "G1" [('Z', cl), ('F', tv)] "",
                  Cmd.mk "G1" [('X', x), ('Y', y)] ""]).length := by simp
            rw [h3, hlen2, set_append_len]
            simp
          rw [hlines] at hrun
          have hidx : pre.length + 1 =
              (pre ++ [Cmd.mk "G1" [('Z', cl), ('F', tv)] ""]).length := by simp
          rw [hidx] at hrun
          have hcan2 : canonScript (Cmd.mk "G1" [('X', x), ('Y', y)] "" ::
              Cmd.mk "G1" [('Z', altUpd c alt), ('F', fs)] "" :: t2) = true := by
            rw [canonScript, List.all_cons, List.all_cons]
            rw [pair_cmd_canonical (by decide) (by decide) (by decide) hxc hyc]
            rw [pair_cmd_canonical (by decide) (by decide) (by decide) hauc hfs]
            exact ht2
          have hnv1 : ¬ (Cmd.mk "G1" [('X', x), ('Y', y)] "").verb = "G0" := by simp
          have hnv2 : ¬ (Cmd.mk "G1" [('Z', altUpd c alt), ('F', fs)] "").verb = "G0" := by
            simp
          have hcount : countG0 (Cmd.mk "G1" [('X', x), ('Y', y)] "" ::
              Cmd.mk "G1" [('Z', altUpd c alt), ('F', fs)] "" :: t2) = countG0 t2 := by
            rw [countG0_cons, countG0_cons]
            simp only [if_neg hnv1, if_neg hnv2]
            omega
          have hbound : (Cmd.mk "G1" [('X', x), ('Y', y)] "" ::
              Cmd.mk "G1" [('Z', altUpd c alt), ('F', fs)] "" :: t2).length +
              2 * countG0 (Cmd.mk "G1" [('X', x), ('Y', y)] "" ::
                Cmd.mk "G1" [('Z', altUpd c alt), ('F', fs)] "" :: t2) + 1 ≤ f := by
            rw [hcount]
            rw [countG0_cons, if_pos hv] at hb
            simp only [List.length_cons] at hb ⊢
            omega
          obtain ⟨out', hres, hsafe⟩ := ih _ _ _ _ hcan2 hauc hbound hrun
          cases hsafe with
          | keep _ _ _ res1 hnv hs1 =>
            have haL : altUpd (Cmd.mk "G1" [('X', x), ('Y', y)] "") (altUpd c alt) =
                altUpd c alt := by rfl
            rw [haL] at hs1
            cases hs1 with
            | keep _ _ _ res2 hnv2 hs2 =>
              have haP : altUpd (Cmd.mk "G1" [('Z', altUpd c alt), ('F', fs)] "")
                  (altUpd c alt) = altUpd c alt := by rfl
              rw [haP] at hs2
              refine ⟨Cmd.mk "G1" [('Z', cl), ('F', tv)] "" ::
                Cmd.mk "G1" [('X', x), ('Y', y)] "" ::
                  Cmd.mk "G1" [('Z', altUpd c alt), ('F', fs)] "" :: res2, ?_, ?_⟩
              · rw [hres]
                simp
              · exact SafeExpansion.travel alt c t2 res2 x y _ _ _ hv hx hy rfl rfl rfl rfl
                  rfl rfl hs2
            | travel _ _ _ _ _ _ _ _ _ hG0 _ _ _ _ _ _ _ _ _ =>
              exact absurd hG0 hnv2
          | travel _ _ _ _ _ _ _ _ _ hG0 _ _ _ _ _ _ _ _ _ =>
            exact absurd hG0 hnv1
  · rw [if_neg hv] at hrun
    have h2 : pre ++ c :: t2 = (pre ++ [c]) ++ t2 := by simp
    have hidx : pre.length + 1 = (pre ++ [c]).length := by simp
    rw [h2, hidx] at hrun
    have hbound : t2.length + 2 * countG0 t2 + 1 ≤ f := by
      rw [countG0_cons, if_neg hv] at hb
      simp only [List.length_cons] at hb
      omega
    obtain ⟨out, hres, hsafe⟩ := ih t2 (pre ++ [c]) (altUpd c alt) res ht2
      (altUpd_canonical hc halt) hbound hrun
    refine ⟨c :: out, ?_, SafeExpansion.keep alt c t2 out hv hsafe⟩
    rw [hres]
    simp

theorem expandLoopF_safe (cl tv fs : PyVal)
    (hcl : cl.canonical = true) (htv : tv.canonical = true) (hfs : fs.canonical = true) :
    ∀ (fuel : Nat) (todo pre : List Cmd) (alt : PyVal) (res : List Cmd),
    canonScript todo = true → alt.canonical = true →
    todo.length + 2 * countG0 todo + 1 ≤ fuel →
    expandLoopF cl tv fs fuel (pre ++ todo) pre.length alt = .ok res →
    ∃ out, res = pre ++ out ∧ SafeExpansion cl tv fs alt todo out := by
  intro fuel
  induction fuel with
  | zero =>
    intro todo pre alt res _ _ hb _
    omega
  | succ f ih =>
    intro todo pre alt res hcanon halt hb hrun
    cases todo with
    | nil =>
      have hg : (pre ++ ([] : List Cmd)).get? pre.length = none := by
        rw [List.append_nil]
        exact List.get?_eq_none.mpr le_rfl
      simp only [expandLoopF, hg] at hrun
      rw [List.append_nil] at hrun
      simp only [Except.ok.injEq] at hrun
      exact ⟨[], by rw [← hrun, List.append_nil], SafeExpansion.nil alt⟩
    | cons c t2 =>
      rw [canonScript, List.all_cons, Bool.and_eq_true] at hcanon
      obtain ⟨hc, ht2⟩ := hcanon
      have hg := get?_append_len pre t2 c
      cases hz : dictGet? c.parameters 'Z' with
      | none =>
        have haeq : altUpd c alt = alt := by simp [altUpd, hz]
        simp only [expandLoopF, hg, hz] at hrun
        rw [← haeq] at hrun
        exact expand_step cl tv fs hcl htv hfs f ih c t2 pre alt res hc ht2 halt hb hrun
      | some z =>
        have haeq : altUpd c alt = z := by simp [altUpd, hz]
        simp only [expandLoopF, hg, hz] at hrun
        rw [← haeq] at hrun
        exact expand_step cl tv fs hcl htv hfs f ih c t2 pre alt res hc ht2 halt hb hrun

/-! ### Lemma layer: canonicity is preserved by the rewriting steps -/

theorem canonParams_elim {ps : List (Char × PyVal)} (h : canonParams ps = true) :
    (∀ p ∈ ps, canonKey p.1 = true ∧ p.2.canonical = true) ∧ (ps.map Prod.fst).Nodup := by
  unfold canonParams at h
  rw [Bool.and_eq_true, List.all_eq_true] at h
  refine ⟨fun p hp => ?_, of_decide_eq_true h.2⟩
  have := h.1 p hp
  rw [Bool.and_eq_true] at this
  exact this

theorem canonParams_intro {ps : List (Char × PyVal)}
    (h1 : ∀ p ∈ ps, canonKey p.1 = true ∧ p.2.canonical = true)
    (h2 : (ps.map Prod.fst).Nodup) : canonParams ps = true := by
  unfold canonParams
  rw [Bool.and_eq_true, List.all_eq_true]
  refine ⟨fun p hp => ?_, decide_eq_true h2⟩
  rw [Bool.and_eq_true]
  exact h1 p hp

theorem cmd_canonical_intro {c : Cmd} (h1 : c.verb = "" → c.parameters = [])
    (h2 : ∀ ch ∈ c.verb.data, canonKey ch = true)
    (h3 : canonParams c.parameters = true) : c.canonical = true := by
  unfold Cmd.canonical
  rw [Bool.and_eq_true]
  refine ⟨?_, h3⟩
  by_cases hv : c.verb = ""
  · rw [if_pos hv]
    exact decide_eq_true (h1 hv)
  · rw [if_neg hv, List.all_eq_true]
    exact h2

theorem dictDel_canonParams {ps : List (Char × PyVal)} {k : Char}
    (h : canonParams ps = true) : canonParams (dictDel ps k) = true := by
  obtain ⟨h1, h2⟩ := canonParams_elim h
  refine canonParams_intro (fun p hp => h1 p (List.mem_of_mem_filter hp)) ?_
  exact h2.sublist ((List.filter_sublist ps).map Prod.fst)

theorem dictSet_canonParams {ps : List (Char × PyVal)} {k : Char} {v : PyVal}
    (hps : canonParams ps = true) (hk : canonKey k = true) (hv : v.canonical = true) :
    canonParams (dictSet ps k v) = true := by
  obtain ⟨h1, h2⟩ := canonParams_elim hps
  refine canonParams_intro ?_ ?_
  · intro p hp
    rcases dictSet_mem hp with hm | he
    · exact h1 p hm
    · rw [he]
      exact ⟨hk, hv⟩
  · rcases @dictSet_keys ps k v with hs | ⟨ha, hn⟩
    · rw [hs]
      exact h2
    · rw [ha]
      rw [List.nodup_append]
      exact ⟨h2, List.nodup_singleton k, by simpa using hn⟩

theorem pyNegOne_canonical {v : PyVal} (h : v.canonical = true) :
    (pyNegOne v).canonical = true := by
  cases v with
  | int n => rfl
  | str s => rfl
  | float m e =>
    rw [show pyNegOne (PyVal.float m e) = PyVal.float (-m) e from rfl]
    unfold PyVal.canonical at h ⊢
    rw [decide_eq_true_eq] at h ⊢
    rcases h with h | h
    · exact Or.inl h
    · right
      intro hmod
      refine h (Int.emod_eq_zero_of_dvd ?_)
      have hd : (10 : Int) ∣ -m := Int.dvd_of_emod_eq_zero hmod
      rwa [dvd_neg] at hd

theorem canonScript_mem {lines : List Cmd} (h : canonScript lines = true) :
    ∀ c ∈ lines, c.canonical = true := by
  rw [canonScript, List.all_eq_true] at h
  exact h

theorem canonScript_intro {lines : List Cmd} (h : ∀ c ∈ lines, c.canonical = true) :
    canonScript lines = true := by
  rw [canonScript, List.all_eq_true]
  exact h

theorem canonScript_stripEF {lines : List Cmd} (h : canonScript lines = true) :
    canonScript (stripEF lines) = true := by
  refine canonScript_intro ?_
  intro c hc
  rw [stripEF, List.mem_map] at hc
  obtain ⟨c0, hc0, rfl⟩ := hc
  have h0 := canonScript_mem h c0 hc0
  obtain ⟨⟨hve, hvk⟩, hp, hn⟩ := cmd_canonical_parts h0
  refine cmd_canonical_intro ?_ hvk ?_
  · intro he
    rw [hve he]
    rfl
  · exact dictDel_canonParams (dictDel_canonParams (canonParams_intro hp hn))

theorem canonScript_removePrinter {lines : List Cmd} (h : canonScript lines = true) :
    canonScript (removePrinterCmds lines) = true := by
  refine canonScript_intro ?_
  intro c hc
  exact canonScript_mem h c (List.mem_of_mem_filter hc)

theorem canonScript_mirrorZ {lines : List Cmd} (h : canonScript lines = true) :
    canonScript (mirrorZ lines) = true := by
  refine canonScript_intro ?_
  intro c hc
  rw [mirrorZ, List.mem_map] at hc
  obtain ⟨c0, hc0, rfl⟩ := hc
  have h0 := canonScript_mem h c0 hc0
  cases hz : dictGet? c0.parameters 'Z' with
  | none => exact h0
  | some v =>
    obtain ⟨⟨hve, hvk⟩, hp, hn⟩ := cmd_canonical_parts h0
    have hvc : v.canonical = true := dictGet?_canonical hz hp
    refine cmd_canonical_intro ?_ hvk ?_
    · intro he
      exfalso
      have : c0.parameters = [] := hve he
      rw [this] at hz
      cases hz
    · exact dictSet_canonParams (canonParams_intro hp hn) (by decide)
        (pyNegOne_canonical hvc)

theorem pyIdxE_mem {lines : List Cmd} {idx : Int} {c : Cmd}
    (h : pyIdxE lines idx = .ok c) : c ∈ lines := by
  unfold pyIdxE at h
  by_cases h0 : 0 ≤ idx
  · rw [if_pos h0] at h
    cases hg : lines.get? idx.toNat with
    | none => rw [hg] at h; cases h
    | some c' =>
      rw [hg] at h
      simp only [Except.ok.injEq] at h
      subst h
      exact List.get?_mem hg
  · rw [if_neg h0] at h
    by_cases h1 : -idx ≤ (lines.length : Int)
    · rw [if_pos h1] at h
      cases hg : lines.get? (lines.length - (-idx).toNat) with
      | none => rw [hg] at h; cases h
      | some c' =>
        rw [hg] at h
        simp only [Except.ok.injEq] at h
        subst h
        exact List.get?_mem hg
    · rw [if_neg h1] at h
      cases h

theorem getRelE_mem {lines : List Cmd} {index offset : Int} {c : Cmd}
    (h : getRelE lines index offset = .ok c) : c ∈ lines := by
  unfold getRelE at h
  cases hj : getRelIdxE lines index offset with
  | error e => rw [hj, exbind_error] at h; cases h
  | ok j =>
    rw [hj, exbind_ok] at h
    exact pyIdxE_mem h

theorem expandE_safe {cl tv fs : PyVal} {lines res : List Cmd}
    (hcl : cl.canonical = true) (htv : tv.canonical = true) (hfs : fs.canonical = true)
    (hcanon : canonScript lines = true)
    (h : expandE cl tv fs lines = .ok res) :
    SafeExpansion cl tv fs (PyVal.int 0) lines res := by
  unfold expandE at h
  have h' : expandLoopF cl tv fs (lines.length + 2 * countG0 lines + 1)
      (([] : List Cmd) ++ lines) (List.length ([] : List Cmd)) (PyVal.int 0) = .ok res := by
    simpa using h
  obtain ⟨out, hres, hsafe⟩ := expandLoopF_safe cl tv fs hcl htv hfs
    (lines.length + 2 * countG0 lines + 1) lines [] (PyVal.int 0) res hcanon rfl le_rfl h'
  rw [List.nil_append] at hres
  rw [← hres] at hsafe
  exact hsafe

/-! ### Lemma layer: the collapse pass keeps the script canonical -/

theorem canonScript_set {lines : List Cmd} {i : Nat} {c : Cmd}
    (h : canonScript lines = true) (hc : c.canonical = true) :
    canonScript (lines.set i c) = true := by
  refine canonScript_intro ?_
  intro d hd
  rcases List.mem_or_eq_of_mem_set hd with hm | he
  · exact canonScript_mem h d hm
  · rw [he]
    exact hc

theorem canonScript_eraseIdx {lines : List Cmd} {i : Nat}
    (h : canonScript lines = true) : canonScript (lines.eraseIdx i) = true := by
  refine canonScript_intro ?_
  intro d hd
  exact canonScript_mem h d ((List.eraseIdx_sublist lines i).mem hd)

theorem collapsePassF_canon : ∀ (fuel : Nat) (lines : List Cmd) (i : Nat) (altered : Bool)
    (out : List Cmd × Bool), canonScript lines = true →
    collapsePassF fuel lines i altered = .ok out → canonScript out.1 = true := by
  intro fuel
  induction fuel with
  | zero =>
    intro lines i altered out h hrun
    simp only [collapsePassF, Except.ok.injEq] at hrun
    rw [← hrun]
    exact h
  | succ f ih =>
    intro lines i altered out h hrun
    cases hg : lines.get? i with
    | none =>
      simp only [collapsePassF, hg, Except.ok.injEq] at hrun
      rw [← hrun]
      exact h
    | some command =>
      simp only [collapsePassF, hg] at hrun
      cases hrel : getRelE lines (i : Int) (-1) with
      | error e =>
        rw [hrel, exbind_error] at hrun
        cases hrun
      | ok old =>
        simp only [hrel, exbind_ok] at hrun
        by_cases hcond : command.verb = "G0" ∧ old.verb = "G0"
        · rw [if_pos hcond] at hrun
          have hcommand : command.canonical = true :=
            canonScript_mem h command (List.get?_mem hg)
          have hold : old.canonical = true := canonScript_mem h old (getRelE_mem hrel)
          cases hz : dictGet? old.parameters 'Z' with
          | none =>
            simp only [hz] at hrun
            cases hj : getRelIdxE (lines.set i command) (i : Int) (-1) with
            | error e =>
              rw [hj, exbind_error] at hrun
              cases hrun
            | ok j =>
              simp only [hj, exbind_ok] at hrun
              refine ih _ _ _ _ ?_ hrun
              exact canonScript_eraseIdx (canonScript_set h hcommand)
          | some z =>
            simp only [hz] at hrun
            have hzc : z.canonical = true :=
              dictGet?_canonical hz (cmd_canonical_parts hold).2.1
            have hcommand' : (Cmd.mk command.verb
                (dictSet command.parameters 'Z' z) command.comment).canonical = true := by
              obtain ⟨⟨hve, hvk⟩, hp, hn⟩ := cmd_canonical_parts hcommand
              refine cmd_canonical_intro ?_ hvk ?_
              · intro he
                exfalso
                rw [hcond.1] at he
                exact absurd he (by decide)
              · exact dictSet_canonParams (canonParams_intro hp hn) (by decide) hzc
            cases hj : getRelIdxE (lines.set i (Cmd.mk command.verb
                (dictSet command.parameters 'Z' z) command.comment)) (i : Int) (-1) with
            | error e =>
              rw [hj, exbind_error] at hrun
              cases hrun
            | ok j =>
              simp only [hj, exbind_ok] at hrun
              refine ih _ _ _ _ ?_ hrun
              exact canonScript_eraseIdx (canonScript_set h hcommand')
        · rw [if_neg hcond] at hrun
          exact ih _ _ _ _ h hrun

theorem collapseLoopF_canon : ∀ (fuel : Nat) (lines out : List Cmd),
    canonScript lines = true → collapseLoopF fuel lines = .ok out →
    canonScript out = true := by
  intro fuel
  induction fuel with
  | zero =>
    intro lines out h hrun
    simp only [collapseLoopF, Except.ok.injEq] at hrun
    rw [← hrun]
    exact h
  | succ f ih =>
    intro lines out h hrun
    simp only [collapseLoopF] at hrun
    cases hp : collapsePassF (lines.length + 1) lines 0 false with
    | error e =>
      rw [hp, exbind_error] at hrun
      cases hrun
    | ok r =>
      simp only [hp, exbind_ok] at hrun
      have hr1 : canonScript r.1 = true := collapsePassF_canon _ _ _ _ _ h hp
      cases hr2 : r.2 with
      | true =>
        rw [hr2, if_pos rfl] at hrun
        exact ih _ _ hr1 hrun
      | false =>
        rw [hr2] at hrun
        simp only [Bool.false_eq_true, if_false] at hrun
        simp only [pure, Except.pure, Except.ok.injEq] at hrun
        rw [← hrun]
        exact hr1

theorem collapseE_canon {lines out : List Cmd} (h : canonScript lines = true)
    (hc : collapseE lines = .ok out) : canonScript out = true :=
  collapseLoopF_canon _ _ _ h hc

theorem convert_mid_canon {lines mid : List Cmd} (h : canonScript lines = true)
    (hm : collapseE (mirrorZ (removePrinterCmds (stripEF lines))) = .ok mid) :
    canonScript mid = true :=
  collapseE_canon (canonScript_mirrorZ (canonScript_removePrinter
    (canonScript_stripEF h))) hm

/-! ### Lemma layer: export grows its text by body and suffix -/

theorem renderFold_length : ∀ (l : List Cmd) (acc : String),
    acc.length + l.length ≤
      (l.foldl (fun acc c => acc ++ c.getFullCommand ++ "\n") acc).length := by
  intro l
  induction l with
  | nil => intro acc; simp
  | cons c t ih =>
    intro acc
    rw [List.foldl_cons]
    have h := ih (acc ++ c.getFullCommand ++ "\n")
    rw [String.length_append, String.length_append] at h
    have hnl : ("\n" : String).length = 1 := rfl
    rw [hnl] at h
    rw [List.length_cons]
    omega

theorem export_twice_longer {s : CNCScript} (h : ¬ (s.lines = [] ∧ s.suffixGcode = [])) :
    ((exportS s).1).length < ((exportS (exportS s).2).1).length := by
  show (renderLines (s.prefixGcode ++ s.lines ++ s.suffixGcode)).length <
    (renderLines ((s.prefixGcode ++ s.lines ++ s.suffixGcode) ++ s.lines ++
      s.suffixGcode)).length
  unfold renderLines
  simp only [List.foldl_append]
  have h1 := renderFold_length s.lines
    (List.foldl (fun acc c => acc ++ c.getFullCommand ++ "\n")
      (List.foldl (fun acc c => acc ++ c.getFullCommand ++ "\n")
        (List.foldl (fun acc c => acc ++ c.getFullCommand ++ "\n") "" s.prefixGcode)
        s.lines) s.suffixGcode)
  have h2 := renderFold_length s.suffixGcode
    (List.foldl (fun acc c => acc ++ c.getFullCommand ++ "\n")
      (List.foldl (fun acc c => acc ++ c.getFullCommand ++ "\n")
        (List.foldl (fun acc c => acc ++ c.getFullCommand ++ "\n")
          (List.foldl (fun acc c => acc ++ c.getFullCommand ++ "\n") "" s.prefixGcode)
          s.lines) s.suffixGcode) s.lines)
  have hne : 1 ≤ s.lines.length + s.suffixGcode.length := by
    by_contra hc
    push_neg at hc
    refine h ⟨?_, ?_⟩
    · rw [← List.length_eq_zero]
      omega
    · rw [← List.length_eq_zero]
      omega
  omega

/-! ### The claims -/

/-- C1: after `convert` completes, relative to the collapsed body every G0 has
been replaced by exactly the lift/lateral/plunge G1 triple -- the lift to the
configured clearance with the travel speed, the lateral move carrying only the
G0's X and Y and no Z, immediately after the lift, and the plunge to the G0's
own Z or the running altitude with the feed speed -- while every non-G0
command is kept unchanged; this is the SafeExpansion shape, so no generated
motion changes Z and X/Y together and every lateral-only move directly
follows its clearance lift. -/
theorem claim_C1_safe_expansion {s res : CNCScript} {mid : List Cmd}
    (hcl : s.clearance.canonical = true) (htv : s.travelSpeed.canonical = true)
    (hfs : s.feedSpeed.canonical = true) (hlines : canonScript s.lines = true)
    (hmid : collapseE (mirrorZ (removePrinterCmds (stripEF s.lines))) = .ok mid)
    (hconv : convertS s = .ok res) :
    SafeExpansion s.clearance s.travelSpeed s.feedSpeed (PyVal.int 0) mid res.lines := by
  unfold convertS convertLinesE at hconv
  simp only [hmid, exbind_ok] at hconv
  cases hexp : expandE s.clearance s.travelSpeed s.feedSpeed mid with
  | error e =>
    rw [hexp, exbind_error] at hconv
    cases hconv
  | ok l =>
    simp only [hexp, exbind_ok] at hconv
    simp only [pure, Except.pure, Except.ok.injEq] at hconv
    rw [← hconv]
    exact expandE_safe hcl htv hfs (convert_mid_canon hlines hmid) hexp

/-- C1 witness: a concrete conversion run in which the surviving G0 becomes
its lift/lateral/plunge triple. -/
theorem claim_C1_witness :
    SafeExpansion (PyVal.int 3) (PyVal.int 500) (PyVal.int 200) (PyVal.int 0)
      [tokD "G1 X1 Y1 Z-1", tokD "G0 X2 Y2", tokD "G1 X3 Y3"]
      [tokD "G1 X1 Y1 Z-1", tokD "G1 Z3 F500", tokD "G1 X2 Y2", tokD "G1 Z-1 F200",
        tokD "G1 X3 Y3"] :=
  @claim_C1_safe_expansion
    (CNCScript.mk [tokD "G1 X1 Y1 Z1 E2 F100", tokD "G0 X2 Y2", tokD "M104 S0",
      tokD "G1 X3 Y3"] [] [] (PyVal.int 3) (PyVal.int 500) (PyVal.int 200) (PyVal.int 0))
    (CNCScript.mk [tokD "G1 X1 Y1 Z-1", tokD "G1 Z3 F500", tokD "G1 X2 Y2",
      tokD "G1 Z-1 F200", tokD "G1 X3 Y3"] [] [] (PyVal.int 3) (PyVal.int 500)
      (PyVal.int 200) (PyVal.int 0))
    [tokD "G1 X1 Y1 Z-1", tokD "G0 X2 Y2", tokD "G1 X3 Y3"]
    rfl rfl rfl rfl rfl rfl

/-- C2: the collapse step does not leave exactly one of two consecutive G0
commands; because `getCommandRelativeToIndex(0, -1)` wraps to the end of the
list, repeated passes delete both, leaving none. -/
theorem claim_C2_collapse_empties :
    collapseE [tokD "G0 X1", tokD "G0 X2"] = .ok [] := rfl

/-- C3: `shrink` does not remove every pure-comment line; removing while
iterating skips the element that slides into the vacated slot, so of two
adjacent comment-only lines the second survives. -/
theorem claim_C3_clean_skips_comment :
    cleanList [Cmd.mk "" [] "a", Cmd.mk "" [] "b"] = [Cmd.mk "" [] "b"] := rfl

/-- C4 (amended): for a nonzero frequency, when the layer-index computation
succeeds and every fill-typed index has a known layer, `removeInfill` keeps
exactly the commands that are not doomed -- doomed meaning the region type
(lowercased) contains "fill", the layer number modulo the frequency is
nonzero, and the verb is not G0 -- in their original order. -/
theorem claim_C4_infill_filter {lines : List Cmd} {f : Nat} {li : List Nat}
    (hf : f ≠ 0) (hli : computeLayerIndicesE lines = .ok li)
    (hlay : ∀ i, i < lines.length → ∀ tv,
      getTypeE (computeTypeChanges lines) i = .ok tv →
      containsSub (strLower tv) "fill" = true → (getLayer? li i).isSome) :
    removeInfillE lines f = .ok ((lines.enum.filter (fun p =>
      ¬ infillDoomed li (computeTypeChanges lines) f p.1 p.2)).map Prod.snd) :=
  removeInfillE_filter hf hli hlay

/-- C4 witness: a concrete thinning run removing the off-cycle infill moves
and keeping the G0 travel. -/
theorem claim_C4_witness :
    removeInfillE [tokD "; LAYER:0", tokD "G1 X1 ; TYPE:Infill", tokD "; LAYER:1",
        tokD "G1 X2", tokD "G0 X3"] 2 =
      .ok [tokD "; LAYER:0", tokD "G1 X1 ; TYPE:Infill", tokD "G0 X3"] :=
  @claim_C4_infill_filter
    [tokD "; LAYER:0", tokD "G1 X1 ; TYPE:Infill", tokD "; LAYER:1", tokD "G1 X2",
      tokD "G0 X3"] 2 [0, 2] (by decide) rfl
    (by
      intro i hi tv htv hfill
      simp only [List.length_cons, List.length_nil] at hi
      interval_cases i <;> rfl)

/-- C4 counterexample: with a fill-typed command before any LAYER marker the
sweep does not filter at all -- `getLayer` yields Python `None` and the
`None % frequency` computation raises a TypeError. -/
theorem claim_C4_counterexample :
    removeInfillE [tokD "G1 X1 ; TYPE:Infill"] 2 =
      .error (.typeError "unsupported operand type(s) for %: NoneType and int") := rfl

/-- C5: on a script with no numeric X anywhere, `orient` does not surface an
explicit missing-axis error; it crashes with Python's generic empty-sequence
ValueError from `min()`. -/
theorem claim_C5_orient_value_error :
    orientE [tokD "G1 Z1"] = .error (.valueError "min() arg is an empty sequence") := rfl

/-- C6: serializing a tokenized line reproduces the verb and the parameter
keys in order, each numeric value rounded at 5 decimal places. -/
theorem claim_C6_roundtrip {line : List Char} {c : Cmd}
    (htok : tokenizeE line = .ok c)
    (hnum : ∀ p ∈ c.parameters, p.2.isNum = true) :
    tokenizeE (c.getCommand).data =
      .ok { verb := c.verb, parameters := c.parameters.map (fun p => (p.1, pyRound5 p.2)),
            comment := "" } :=
  claim_roundtrip_core htok hnum

/-- C6 witness: the round trip on a concrete line with float and negative
integer parameters. -/
theorem claim_C6_witness :
    tokenizeE ((tokD "G1 X3.14 Y-2 Z0").getCommand).data =
      .ok (Cmd.mk "G1" [('X', PyVal.float 314 2), ('Y', PyVal.int (-2)),
        ('Z', PyVal.int 0)] "") :=
  @claim_C6_roundtrip ("G1 X3.14 Y-2 Z0").data (tokD "G1 X3.14 Y-2 Z0") rfl (by decide)

/-- C7: when both axis minima exist, `orient` succeeds, a second call changes
nothing, the minimum numeric X and Y afterwards are both zero, and every
non-numeric X/Y value is left untouched (it is excluded from the minimum and
from the subtraction). -/
theorem claim_C7_orient_idempotent {lines : List Cmd} {minx miny : PyVal}
    (hx : pyMin? (numList (axisArgs lines 'X')) = some minx)
    (hy : pyMin? (numList (axisArgs lines 'Y')) = some miny) :
    ∃ s₁, orientE lines = .ok s₁ ∧
      orientE s₁ = .ok s₁ ∧
      (∃ zx, pyMin? (numList (axisArgs s₁ 'X')) = some zx ∧ zx.toQ = 0) ∧
      (∃ zy, pyMin? (numList (axisArgs s₁ 'Y')) = some zy ∧ zy.toQ = 0) ∧
      (∀ i c0, lines.get? i = some c0 → ∃ c₁, s₁.get? i = some c₁ ∧
        c₁.verb = c0.verb ∧ c₁.comment = c0.comment ∧
        (∀ k v, dictGet? c0.parameters k = some v → v.isNum = false →
          dictGet? c₁.parameters k = some v)) :=
  orient_full hx hy

/-- C7 witness: a concrete two-command script on which `orient` is idempotent
after the first call. -/
theorem claim_C7_witness :
    ∃ s₁, orientE [tokD "G1 X3 Y2", tokD "G1 X1 Y4"] = .ok s₁ ∧ orientE s₁ = .ok s₁ := by
  obtain ⟨s₁, h1, h2, -⟩ := @claim_C7_orient_idempotent
    [tokD "G1 X3 Y2", tokD "G1 X1 Y4"] (PyVal.int 1) (PyVal.int 2) rfl rfl
  exact ⟨s₁, h1, h2⟩

/-- C8: with the type table `computeTypeChanges` builds (seeded at index 0),
`getType` never reaches its error branch: for every query it returns the
recorded type whose index is the largest one at most the query index. -/
theorem claim_C8_getType_total (lines : List Cmd) (q : Nat) :
    ∃ k v, getTypeE (computeTypeChanges lines) q = .ok v ∧
      (k, v) ∈ computeTypeChanges lines ∧ k ≤ q ∧
      ∀ p ∈ computeTypeChanges lines, p.1 ≤ q → p.1 ≤ k := by
  obtain ⟨hp, hz⟩ := computeTypeChanges_inv lines
  obtain ⟨k, v, h1, h2, h3, h4⟩ := getTypeE_spec hp hz q
  exact ⟨k, v, h1, h2, h3, h4⟩

/-- C9: the travel expansion reads the G0's X parameter unconditionally, so a
surviving pure-Z rapid move makes `convert` fail with a missing-key lookup
error instead of producing output. -/
theorem claim_C9_expansion_keyerror :
    convertLinesE (PyVal.int 3) (PyVal.int 500) (PyVal.int 200)
      [tokD "G1 X0", tokD "G0 Z5"] = .error (.keyError 'X') := rfl

/-- C10 (amended): `export` extends `prefixGcode` in place -- afterwards it
holds prefix ++ body ++ suffix while every other field is unchanged -- and
returns the text of that extended list; whenever body and suffix are not both
empty, a second call returns a strictly longer (hence different) text. -/
theorem claim_C10_export_mutates {s : CNCScript}
    (h : ¬ (s.lines = [] ∧ s.suffixGcode = [])) :
    (exportS s).2 = { s with prefixGcode := s.prefixGcode ++ s.lines ++ s.suffixGcode } ∧
    (exportS s).1 = renderLines (s.prefixGcode ++ s.lines ++ s.suffixGcode) ∧
    ((exportS s).1).length < ((exportS (exportS s).2).1).length ∧
    ¬ (exportS (exportS s).2).1 = (exportS s).1 := by
  refine ⟨rfl, rfl, export_twice_longer h, ?_⟩
  intro he
  have hlt := export_twice_longer h
  rw [he] at hlt
  omega

/-- C10 witness: on a one-command body the second export is strictly longer
than the first. -/
theorem claim_C10_witness :
    ((exportS (CNCScript.mk [tokD "G1 X1"] [] [] (PyVal.int 0) (PyVal.int 0)
        (PyVal.int 0) (PyVal.int 0))).1).length <
      ((exportS (exportS (CNCScript.mk [tokD "G1 X1"] [] [] (PyVal.int 0) (PyVal.int 0)
        (PyVal.int 0) (PyVal.int 0))).2).1).length :=
  (claim_C10_export_mutates (by simp)).2.2.1

/-- C10 counterexample: on a script with empty body and suffix the second
export returns the same text as the first, not a longer, different one. -/
theorem claim_C10_counterexample :
    (exportS (exportS (CNCScript.mk [] [] [] (PyVal.int 0) (PyVal.int 0) (PyVal.int 0)
        (PyVal.int 0))).2).1 =
      (exportS (CNCScript.mk [] [] [] (PyVal.int 0) (PyVal.int 0) (PyVal.int 0)
        (PyVal.int 0))).1 := rfl
